import Mathlib

/-!
# Verification of the flow-cli contract import-resolution core

A shallow embedding of the contract resolution logic of the repository:

* `src/flow/project/contracts/contracts.go` — the deployment-ordered
  resolver (`Preprocessor`, `Contract`, `sortByDeploymentOrder`,
  `absolutePath`, `getAliasForImport`);
* `src/pkg/flowcli/contracts/resolver.go` — the ad-hoc resolver
  (`Resolver.ResolveImports`, `getFileImports`, `replaceImport`,
  `getSourceTarget`).

Go strings are modelled as Lean `String` (character-level replacement,
which coincides with Go's byte-level replacement on the ASCII inputs of
this domain).  Go maps are modelled as insertion-ordered association
lists with overwrite-on-insert; Go map iteration enumerates the list in
order, and the Go runtime's per-run randomisation of map iteration order
is modelled by quantifying over the enumeration order explicitly.

The external Cadence parser is modelled, following the spec's data
model, as the list of import declarations it exposes, each carrying an import
location that is either an address location or a string
(path) location.  The external gonum topological-sort primitive is
replaced, as the spec's design notes direct, by self-contained
Kahn-style logic with explicit cycle detection.
-/

/-! ## Text primitives (Go `strings` package) -/

/-- Does `pat` occur as a prefix of `s`?  (Character-by-character.) -/
def prefixMatch : List Char → List Char → Bool
  | [], _ => true
  | _ :: _, [] => false
  | p :: ps, c :: cs => p == c && prefixMatch ps cs

/-- One-pass scan replacing the first occurrence of `old` (nonempty). -/
def replaceFirstAux (old new : List Char) : List Char → List Char
  | [] => []
  | c :: cs =>
    if prefixMatch old (c :: cs) then new ++ List.drop old.length (c :: cs)
    else c :: replaceFirstAux old new cs

/-- Go `strings.Replace(s, old, new, 1)`: replace the first occurrence of
`old` in `s` by `new`.  With an empty `old`, Go inserts `new` once at the
start of `s`. -/
def stringsReplaceOnce (s old new : String) : String :=
  if old.data = [] then ⟨new.data ++ s.data⟩
  else ⟨replaceFirstAux old.data new.data s.data⟩

/-- One-pass scan replacing every (non-overlapping, leftmost-first)
occurrence of the nonempty pattern `o :: os`.  The `fuel` argument makes
the recursion structural; each step consumes at least one character, so
the scan is exhaustive whenever `fuel ≥ s.length` (the zero-fuel branch
is unreachable at the call site below). -/
def replaceAllAux (o : Char) (os new : List Char) : Nat → List Char → List Char
  | 0, s => s
  | _ + 1, [] => []
  | n + 1, c :: cs =>
    if prefixMatch (o :: os) (c :: cs) then new ++ replaceAllAux o os new n (List.drop os.length cs)
    else c :: replaceAllAux o os new n cs

/-- Go `strings.ReplaceAll(s, old, new)`.  The empty-pattern case (which
Go treats by interspersing `new` everywhere) never arises here: the only
call site uses the fixed pattern `".cdc"`. -/
def stringsReplaceAll (s old new : String) : String :=
  match old.data with
  | [] => s
  | o :: os => ⟨replaceAllAux o os new.data s.data.length s.data⟩

/-- Does `pat` occur anywhere in `s`? -/
def occursIn (pat : List Char) : List Char → Bool
  | [] => prefixMatch pat []
  | c :: cs => prefixMatch pat (c :: cs) || occursIn pat cs

/-! ## Path primitives (Go `path` package, and `path/filepath` on Unix) -/

/-- Split on `'/'`; always returns a nonempty list of segments. -/
def splitSlash : List Char → List (List Char)
  | [] => [[]]
  | c :: cs =>
    if c = '/' then [] :: splitSlash cs
    else
      match splitSlash cs with
      | [] => [[c]]
      | seg :: rest => (c :: seg) :: rest

/-- The segment-stack step of Go `path.Clean`: drop empty and `"."`
segments, let `".."` cancel a preceding segment (or be dropped at the
root of a rooted path).  The accumulator holds the output segments in
reverse order. -/
def cleanStep (rooted : Bool) (acc : List (List Char)) (seg : List Char) : List (List Char) :=
  if seg = [] ∨ seg = ['.'] then acc
  else if seg = ['.', '.'] then
    match acc with
    | [] => if rooted then [] else [['.', '.']]
    | top :: rest => if top = ['.', '.'] then seg :: acc else rest
  else seg :: acc

/-- Go `path.Clean`. -/
def pathClean (p : String) : String :=
  if p.data = [] then "."
  else
    let rooted := p.data.head? = some '/'
    let segs := ((splitSlash p.data).foldl (cleanStep rooted) []).reverse
    let body := List.intercalate ['/'] segs
    if rooted then ⟨'/' :: body⟩
    else if body = [] then "." else ⟨body⟩

/-- Go `path.Dir`: everything up to (and including) the final slash,
cleaned; `"."` when there is no slash. -/
def pathDir (p : String) : String :=
  pathClean ⟨(p.data.reverse.dropWhile (fun c => ¬ (c = '/'))).reverse⟩

/-- Go `path.Base` (= `filepath.Base` on Unix): strip trailing slashes,
then keep the part after the final slash. -/
def pathBase (p : String) : String :=
  if p.data = [] then "."
  else
    let s := p.data.reverse.dropWhile (fun c => c = '/')
    if s = [] then "/"
    else ⟨(s.takeWhile (fun c => ¬ (c = '/'))).reverse⟩

/-- Go `path.Join` of exactly two elements: the nonempty elements joined
with `"/"`, then cleaned; `""` when both are empty. -/
def pathJoin (a b : String) : String :=
  if a.data = [] then (if b.data = [] then "" else pathClean b)
  else pathClean (a ++ "/" ++ b)

/-- `contracts.go`, `absolutePath`: resolve an import location relative
to the directory of the importing module's source path. -/
def absolutePath (basePath relativePath : String) : String :=
  pathJoin (pathDir basePath) relativePath

/-- `contracts.go`, `getAliasForImport`: the alias key of an import
location — `strings.ReplaceAll(filepath.Base(location), ".cdc", "")`. -/
def getAliasForImport (location : String) : String :=
  stringsReplaceAll (pathBase location) ".cdc" ""

/-! ## Data model

The external Cadence parser (out of scope for the core, per the spec) is
modelled by the list of import declarations it exposes; each import
location is either an address location (`common.AddressLocation`, a
2020-era struct of an 8-byte address and a name) or a string location
(`common.StringLocation`, a path or symbolic name). -/

/-- An import location as exposed by the parsed program. -/
inductive ImportLocation where
  | addressLoc (addr : String) (name : String)
  | stringLoc (s : String)
deriving DecidableEq, Repr

/-- `common.AddressLocation.String()`: the address hex when the name is
empty, otherwise `address.name`. -/
def addressLocationString (addr name : String) : String :=
  if name.data = [] then addr else addr ++ "." ++ name

/-- The hex rendering of the zero `common.Address` (8 zero bytes). -/
def zeroAddressHex : String := "0000000000000000"

/-- The result of `location.String()` on the zero value of
`common.AddressLocation` — what a failed two-value Go type assertion
`location, ok := imp.Location.(common.AddressLocation)` leaves in
`location`. -/
def zeroAddressLocationString : String := addressLocationString zeroAddressHex ""

/-- `flow.HexToAddress` followed by rendering via `Address.String()`
(= `Address.Hex()`, lowercase hex of the 8 address bytes): the decoded
bytes are copied into the low end of the address, i.e. the hex string is
left-padded with zeros to 16 digits.  The model covers the well-formed
inputs of this domain (lowercase hex of at most 8 bytes). -/
def flowHexToAddress (h : String) : String :=
  if h.length ≤ 16 then ⟨List.replicate (16 - h.length) '0' ++ h.data⟩
  else ⟨h.data.drop (h.length - 16)⟩

/-- Insertion-ordered association list with overwrite-on-insert:
the model of a Go `map` write `m[k] = v`. -/
def mapInsert {α : Type} (m : List (String × α)) (k : String) (v : α) : List (String × α) :=
  match m with
  | [] => [(k, v)]
  | (k0, v0) :: rest => if k0 = k then (k, v) :: rest else (k0, v0) :: mapInsert rest k v

/-- Go map read `m[k]` (present case): the model of a Go map lookup. -/
def mapLookup {α : Type} (m : List (String × α)) (k : String) : Option α :=
  (m.find? (fun p => p.1 == k)).map (fun p => p.2)

/-- The immutable part of a dependency target that the code ever reads
through the stored `*Contract` pointer: its graph id (`ID()`) and its
deployment address (`Target()`).  Both are fixed at creation. -/
structure DepRef where
  index : Nat
  target : String
deriving DecidableEq, Repr

/-- `contracts.go`, `Contract`: a module of the deployment working set.
`index` is the int64 graph-node id, `target` the `flow.Address` rendered
as 16 lowercase hex digits, `code` the raw source text, `program` the
parsed import declarations. -/
structure Contract where
  index : Nat
  name : String
  source : String
  target : String
  code : String
  program : List ImportLocation
  dependencies : List (String × DepRef)
  aliases : List (String × String)
deriving DecidableEq, Repr

/-- `Contract.imports()`: the location strings of import declarations
whose location is a `common.StringLocation` (the successful type
assertion appends `location.String()`, the string itself). -/
def Contract.imports (c : Contract) : List String :=
  c.program.foldl
    (fun acc imp =>
      match imp with
      | .stringLoc s => acc ++ [s]
      | .addressLoc _ _ => acc)
    []

/-- `Contract.addDependency`. -/
def Contract.addDependency (c : Contract) (location : String) (dep : DepRef) : Contract :=
  { c with dependencies := mapInsert c.dependencies location dep }

/-- `Contract.addAlias`. -/
def Contract.addAlias (c : Contract) (location : String) (target : String) : Contract :=
  { c with aliases := mapInsert c.aliases location target }

/-- `Contract.TranspiledCode()`: starting from the raw code, one
`strings.Replace(code, "\x7blocation\x7d" quoted, "0x"+target, 1)` per
dependency entry, then one per alias entry. -/
def Contract.TranspiledCode (c : Contract) : String :=
  let code := c.dependencies.foldl
    (fun code p => stringsReplaceOnce code ("\"" ++ p.1 ++ "\"") ("0x" ++ p.2.target)) c.code
  c.aliases.foldl
    (fun code p => stringsReplaceOnce code ("\"" ++ p.1 ++ "\"") ("0x" ++ p.2)) code

/-- `contracts.go`, `Preprocessor`: the alias table and the working set
(a Go map from source path to `*Contract`, modelled as an
insertion-ordered list keyed by `source`). -/
structure Preprocessor where
  aliases : List (String × String)
  contracts : List Contract
deriving DecidableEq, Repr

/-- `NewPreprocessor`. -/
def NewPreprocessor (aliases : List (String × String)) : Preprocessor :=
  { aliases := aliases, contracts := [] }

/-- Write `p.contracts[c.source] = c`: overwrite the entry with the same
source path, or append. -/
def insertContract (cs : List Contract) (c : Contract) : List Contract :=
  match cs with
  | [] => [c]
  | c0 :: rest => if c0.source = c.source then c :: rest else c0 :: insertContract rest c

/-- `Preprocessor.AddContractSource`: read and parse the source (the
byte-level read and the Cadence parse are external capabilities; their
combined outcome is the `load` argument), then register the contract
under its source path with id `len(p.contracts)` (the map size before
insertion). -/
def Preprocessor.AddContractSource (p : Preprocessor) (contractName contractSource target : String)
    (load : Except String (String × List ImportLocation)) : Except String Preprocessor :=
  match load with
  | .error e => .error e
  | .ok (code, program) =>
    .ok { p with
          contracts := insertContract p.contracts
            { index := p.contracts.length
              name := contractName
              source := contractSource
              target := target
              code := code
              program := program
              dependencies := []
              aliases := [] } }

/-- A registration request: name, source path, target address, and the
outcome of reading + parsing the source file (external world). -/
structure SourceInput where
  name : String
  source : String
  target : String
  load : Except String (String × List ImportLocation)

/-- A sequence of `AddContractSource` calls, each aborting the sequence
on failure. -/
def registerLoop (p : Preprocessor) : List SourceInput → Except String Preprocessor
  | [] => .ok p
  | i :: is =>
    match p.AddContractSource i.name i.source i.target i.load with
    | .error e => .error e
    | .ok p1 => registerLoop p1 is

/-- A sequence of `AddContractSource` calls on a fresh `Preprocessor`. -/
def registerAll (aliases : List (String × String)) (inputs : List SourceInput) :
    Except String Preprocessor :=
  registerLoop (NewPreprocessor aliases) inputs

/-- The structured errors of `PrepareForDeployment`.  The unresolved import
carries exactly the data interpolated into the Go error string;
the cycle error models gonum `topo.Sort`'s unorderable error. -/
inductive PrepError where
  | unresolvedImport (name : String) (importPath : String)
  | importCycle (stuck : List Contract)
deriving DecidableEq, Repr

/-- The Go error text of an unresolved deployment-mode import:
`fmt.Errorf("Import from %s could not be find: %s, make sure import path is correct.", c.name, importPath)`. -/
def PrepError.message : PrepError → String
  | .unresolvedImport name importPath =>
      "Import from " ++ name ++ " could not be find: " ++ importPath ++
        ", make sure import path is correct."
  | .importCycle _ => "topo: no topological ordering"

/-- `p.contracts[importPath]` — look a module up by source path. -/
def lookupContract (cs : List Contract) (importPath : String) : Option Contract :=
  cs.find? (fun c => c.source == importPath)

/-- The inner loop of `Preprocessor.PrepareForDeployment` for one
contract: for each import location, try the working set under the
normalized path, then the alias table under the alias key; record the
dependency or alias, or fail with the unresolved-import error. -/
def resolveContractImports (contractsAll : List Contract) (aliases : List (String × String))
    (c : Contract) : List String → Except PrepError Contract
  | [] => .ok c
  | location :: rest =>
    let importPath := absolutePath c.source location
    let importPathAlias := getAliasForImport location
    match lookupContract contractsAll importPath with
    | some importContract =>
        resolveContractImports contractsAll aliases
          (c.addDependency location ⟨importContract.index, importContract.target⟩) rest
    | none =>
        match mapLookup aliases importPathAlias with
        | some importAlias =>
            resolveContractImports contractsAll aliases
              (c.addAlias location (flowHexToAddress importAlias)) rest
        | none => .error (.unresolvedImport c.name importPath)

/-- The edge list of the dependency graph: for each contract `c` (in map
iteration order) and each entry `dep` of `c.dependencies`, the directed
edge `dep → c` (`g.SetEdge(g.NewEdge(dep, c))`), as a pair of node ids. -/
def depEdges (cs : List Contract) : List (Nat × Nat) :=
  (cs.map (fun c => c.dependencies.map (fun p => (p.2.index, c.index)))).flatten

/-- Does `c` have no incoming edge from any node still in `remaining`? -/
def noIncoming (edges : List (Nat × Nat)) (remaining : List Contract) (c : Contract) : Bool :=
  remaining.all (fun d => decide ((d.index, c.index) ∉ edges))

/-- Remove the first occurrence of `a`. -/
def eraseFirst {α : Type} [DecidableEq α] : List α → α → List α
  | [], _ => []
  | x :: xs, a => if x = a then xs else x :: eraseFirst xs a

/-- Modelled from the spec: the gonum `topo.Sort` primitive is external
to the repository; per the spec's design notes it is replaced by
equivalent self-contained standard topological-sort logic with explicit
cycle detection (Kahn-style: repeatedly emit a node with no incoming
edge from the remaining nodes; if none exists and nodes remain, the
remaining nodes form cycles and sorting fails). -/
def kahnStep (edges : List (Nat × Nat)) : Nat → List Contract → Except PrepError (List Contract)
  | 0, remaining => if remaining.isEmpty then .ok [] else .error (.importCycle remaining)
  | n + 1, remaining =>
    match remaining.find? (fun c => noIncoming edges remaining c) with
    | some c =>
      match kahnStep edges n (eraseFirst remaining c) with
      | .ok rest => .ok (c :: rest)
      | .error e => .error e
    | none => if remaining.isEmpty then .ok [] else .error (.importCycle remaining)

/-- The sort entry point: every round of `kahnStep` that emits a node
removes it from `remaining`, so `remaining.length` rounds of fuel make
the zero-fuel branch unreachable and the recursion exhaustive. -/
def kahnSort (edges : List (Nat × Nat)) (remaining : List Contract) :
    Except PrepError (List Contract) :=
  kahnStep edges remaining.length remaining

/-- `contracts.go`, `sortByDeploymentOrder`: build the dependency graph
over the working set and topologically sort it. -/
def sortByDeploymentOrder (contracts : List Contract) : Except PrepError (List Contract) :=
  kahnSort (depEdges contracts) contracts

/-- The outer loop of `Preprocessor.PrepareForDeployment`: resolve the imports
of each contract of the working set in iteration order,
returning at the first error (fail-fast — the Go loop `return`s from
inside the range loop).  On success the list holds the contracts with
their dependency and alias maps populated. -/
def resolveAllContracts (contractsAll : List Contract) (aliases : List (String × String)) :
    List Contract → Except PrepError (List Contract)
  | [] => .ok []
  | c :: cs =>
    match resolveContractImports contractsAll aliases c c.imports with
    | .error e => .error e
    | .ok c1 =>
      match resolveAllContracts contractsAll aliases cs with
      | .error e => .error e
      | .ok cs1 => .ok (c1 :: cs1)

/-- `Preprocessor.PrepareForDeployment`: resolve every import of every
contract of the working set (recording dependencies and aliases,
failing fast on the first unresolved import), then sort the working set
by deployment order. -/
def Preprocessor.PrepareForDeployment (p : Preprocessor) : Except PrepError (List Contract) :=
  match resolveAllContracts p.contracts p.aliases p.contracts with
  | .error e => .error e
  | .ok resolved => sortByDeploymentOrder resolved

/-! ## The ad-hoc resolver (`src/pkg/flowcli/contracts/resolver.go`) -/

/-- `resolver.go`, `Resolver`: one module's code (a byte slice, modelled
as a string) and its parsed program. -/
structure Resolver where
  code : String
  program : List ImportLocation
deriving DecidableEq, Repr

/-- `Resolver.getFileImports`: for each import declaration the code runs
`location, ok := importDeclaration.Location.(common.AddressLocation)`
and, when the assertion fails (`!ok`), appends `location.String()`.
On a failed two-value type assertion Go leaves the zero value of
`common.AddressLocation` in `location`, so what is appended is the zero
address-location string — a constant — rather than the declaration's own
location string. -/
def Resolver.getFileImports (r : Resolver) : List String :=
  r.program.foldl
    (fun acc imp =>
      match imp with
      | .addressLoc _ _ => acc
      | .stringLoc _ => acc ++ [zeroAddressLocationString])
    []

/-- `Resolver.HasFileImports`. -/
def Resolver.HasFileImports (r : Resolver) : Bool :=
  r.getFileImports.length > 0

/-- `Resolver.replaceImport`: one first-occurrence replacement of the
quoted location by `0x` plus the target. -/
def Resolver.replaceImport (r : Resolver) (fromLoc toAddr : String) : String :=
  stringsReplaceOnce r.code ("\"" ++ fromLoc ++ "\"") ("0x" ++ toAddr)

/-- `project.Contract` (the configuration entry consumed by the ad-hoc
resolver): name, source path, and target `flow.Address` (already
rendered as 16 lowercase hex digits, as `Target.String()` would). -/
structure ProjectContract where
  name : String
  source : String
  target : String
deriving DecidableEq, Repr

/-- `Resolver.getSourceTarget`: one flat map from cleaned source paths
to address strings — configuration contracts first, then aliases (each
alias address parsed through `flow.HexToAddress` and re-rendered). -/
def getSourceTarget (contracts : List ProjectContract) (aliases : List (String × String)) :
    List (String × String) :=
  let m := contracts.foldl (fun m c => mapInsert m (pathClean c.source) c.target) []
  aliases.foldl (fun m p => mapInsert m (pathClean p.1) (flowHexToAddress p.2)) m

/-- The loop body of `Resolver.ResolveImports`: for each extracted import,
look up the path resolved against the code file's directory in
the source-target map (a Go map read whose zero value is `""`); a found
target rewrites the stored code in place (`r.code = r.replaceImport`),
an empty target aborts with the unresolved-import error. -/
def resolveImportsLoop (sourceTarget : List (String × String)) (codePath : String)
    (r : Resolver) : List String → Except String (String × Resolver)
  | [] => .ok (r.code, r)
  | imp :: rest =>
    let target := (mapLookup sourceTarget (absolutePath codePath imp)).getD ""
    if target ≠ "" then
      resolveImportsLoop sourceTarget codePath { r with code := r.replaceImport imp target } rest
    else
      .error ("import " ++ imp ++ " could not be resolved from the configuration")

/-- `Resolver.ResolveImports`: extract the file imports, build the
source-target map, and run the rewrite loop.  The returned pair is the
rewritten code together with the post-call resolver state (whose stored
`code` field the loop has been overwriting). -/
def Resolver.ResolveImports (r : Resolver) (codePath : String)
    (contracts : List ProjectContract) (aliases : List (String × String)) :
    Except String (String × Resolver) :=
  resolveImportsLoop (getSourceTarget contracts aliases) codePath r r.getFileImports

/-! ## Concrete sample data -/

deriving instance DecidableEq for Except

/-- Substring test (used to state what an error message names). -/
def stringContains (s pat : String) : Bool :=
  occursIn pat.data s.data

/-- A module with no imports. -/
def sampleA : Contract :=
  { index := 0, name := "A", source := "/x/A.cdc", target := "0000000000000001"
    code := "contract A {}", program := [], dependencies := [], aliases := [] }

/-- A second module with no imports (independent of `sampleA`). -/
def sampleB : Contract :=
  { index := 1, name := "B", source := "/x/B.cdc", target := "0000000000000002"
    code := "contract B {}", program := [], dependencies := [], aliases := [] }

/-- A module importing `sampleA` by relative path. -/
def sampleBdepA : Contract :=
  { index := 1, name := "B", source := "/x/B.cdc", target := "0000000000000002"
    code := "import A from \"./A.cdc\"\ncontract B {}"
    program := [.stringLoc "./A.cdc"], dependencies := [], aliases := [] }

/-- `sampleBdepA` as the deployment resolution pass returns it: the
dependency map populated with the resolved reference to `sampleA`. -/
def sampleBresolved : Contract :=
  { sampleBdepA with
    dependencies := [("./A.cdc", { index := 0, target := "0000000000000001" })] }

/-- Cyclic pair: `A` imports `"./B.cdc"` … -/
def cycA : Contract :=
  { index := 0, name := "A", source := "/x/A.cdc", target := "0000000000000001"
    code := "import B from \"./B.cdc\"\ncontract A {}"
    program := [.stringLoc "./B.cdc"], dependencies := [], aliases := [] }

/-- … and `B` imports `"./A.cdc"`. -/
def cycB : Contract :=
  { index := 1, name := "B", source := "/x/B.cdc", target := "0000000000000002"
    code := "import A from \"./A.cdc\"\ncontract B {}"
    program := [.stringLoc "./A.cdc"], dependencies := [], aliases := [] }

/-! ## Derived notions used by the theorems -/

/-- The dependency relation of a working set, read off the source data
exactly as `PrepareForDeployment` resolves it: `dependsOn p d m` holds
when `m` is a registered module one of whose import locations resolves
(by normalized path) to the registered module `d`. -/
def dependsOn (p : Preprocessor) (d m : Contract) : Prop :=
  m ∈ p.contracts ∧
    ∃ loc ∈ m.imports, lookupContract p.contracts (absolutePath m.source loc) = some d

/-- The position of the contract with node id `i` in a returned
ordering. -/
def posByIdx (l : List Contract) (i : Nat) : Nat :=
  l.findIdx (fun x => x.index == i)

/-- The registered contract with node id `i` (unique when ids are
pairwise distinct). -/
def findByIdx (cs : List Contract) (i : Nat) : Option Contract :=
  cs.find? (fun c => c.index == i)

instance : Inhabited Contract := ⟨sampleA⟩

/-! ## C5 — location extraction -/

/-- C5: location extraction does not return the modules' import location
strings in ad-hoc mode.  For a module whose program declares the two
string-location imports `"./A.cdc"` and `"./B.cdc"`,
`Resolver.getFileImports` returns the zero address-location string
twice — the Go two-value type assertion
`location, ok := importDeclaration.Location.(common.AddressLocation)`
leaves the zero `common.AddressLocation` in `location` when it fails,
and the code appends `location.String()` instead of the declaration's
own location.  The deployment-mode extractor `Contract.imports` returns
the declared locations, as the claim describes. -/
theorem getFileImports_zero_location_bug :
    Resolver.getFileImports
        { code := "import A from \"./A.cdc\"\nimport B from \"./B.cdc\""
          program := [.stringLoc "./A.cdc", .stringLoc "./B.cdc"] }
      = [zeroAddressLocationString, zeroAddressLocationString]
    ∧ zeroAddressLocationString ≠ "./A.cdc"
    ∧ zeroAddressLocationString ≠ "./B.cdc"
    ∧ Contract.imports
        { index := 0, name := "M", source := "/x/M.cdc", target := "0000000000000003"
          code := "import A from \"./A.cdc\"\nimport B from \"./B.cdc\""
          program := [.stringLoc "./A.cdc", .stringLoc "./B.cdc"]
          dependencies := [], aliases := [] }
      = ["./A.cdc", "./B.cdc"] := by
  refine ⟨rfl, by decide, by decide, rfl⟩

/-! ## C6 — path normalization of absolute locations -/

/-- C6 counterexample: for the importing module `/a/b/M.cdc` and the
already-absolute import location `/c/D.cdc`, `absolutePath` is
`path.Join(path.Dir(base), loc)`, and Go's `path.Join` concatenates and
cleans without treating an absolute second element specially — the
normalized key is the directory-prefixed `/a/b/c/D.cdc`, not the cleaned
location `/c/D.cdc` the claim requires. -/
theorem absolutePath_absolute_location_counterexample :
    absolutePath "/a/b/M.cdc" "/c/D.cdc" = "/a/b/c/D.cdc"
    ∧ pathClean "/c/D.cdc" = "/c/D.cdc"
    ∧ absolutePath "/a/b/M.cdc" "/c/D.cdc" ≠ pathClean "/c/D.cdc" := by
  refine ⟨by decide, by decide, by decide⟩

/-! ## C7 — alias-key derivation -/

/-- C7 counterexample: the alias key is computed with
`strings.ReplaceAll(filepath.Base(location), ".cdc", "")`, which removes
every occurrence of `".cdc"` in the final path segment, not only a
trailing extension: for `x/Foo.cdcBar.cdc` the key is `FooBar`, while
the claim requires the interior `.cdc` to be left intact
(`Foo.cdcBar`). -/
theorem getAliasForImport_counterexample :
    getAliasForImport "x/Foo.cdcBar.cdc" = "FooBar"
    ∧ getAliasForImport "x/Foo.cdcBar.cdc" ≠ "Foo.cdcBar" := by
  refine ⟨by decide, by decide⟩

/-! ## C9 — determinism of the deployment ordering -/

/-- C9: the deployment ordering depends on the order in which the Go
runtime happens to enumerate the `p.contracts` map.  The two lists below
enumerate the same working set (the same source-path-to-contract map,
two mutually independent modules with no imports); the returned
orderings differ.  Go's map iteration order is randomized per run, so
two runs over the same registered modules can return either ordering —
the run-to-run determinism the claim (and the spec) require does not
hold of the code, which iterates hash maps both when assigning graph
nodes and edges and inside the graph library. -/
theorem prepareForDeployment_order_dependent :
    Preprocessor.PrepareForDeployment { aliases := [], contracts := [sampleA, sampleB] }
      = .ok [sampleA, sampleB]
    ∧ Preprocessor.PrepareForDeployment { aliases := [], contracts := [sampleB, sampleA] }
      = .ok [sampleB, sampleA]
    ∧ ([sampleA, sampleB] : List Contract) ≠ [sampleB, sampleA] := by
  refine ⟨by decide, by decide, by decide⟩

/-! ## C3 — unresolved-import error contents -/

/-- C3 counterexample: in ad-hoc mode the unresolved-import error names
neither the importing module nor the unresolved location.  The module at
`/x/Main.cdc` imports `"./Foo.cdc"`, which matches no configured
contract (by normalized path) and no alias (by alias key) — the
working set and alias table are empty.  Resolution fails, but the error
message is built only from the extracted import string (here the zero
address-location constant, see C5): it contains neither `Main` (the importing
module) nor `Foo` (the unresolved location). -/
theorem resolveImports_error_names_counterexample :
    Resolver.ResolveImports
        { code := "import Foo from \"./Foo.cdc\"", program := [.stringLoc "./Foo.cdc"] }
        "/x/Main.cdc" [] []
      = .error "import 0000000000000000 could not be resolved from the configuration"
    ∧ stringContains
        "import 0000000000000000 could not be resolved from the configuration" "Main" = false
    ∧ stringContains
        "import 0000000000000000 could not be resolved from the configuration" "Foo" = false := by
  refine ⟨by decide, by decide, by decide⟩

/-! ## C4 — first-occurrence-only substitution -/

/-- C4 counterexample: a module that imports the same location twice has
both occurrences rewritten in ad-hoc mode, because
`Resolver.ResolveImports` performs one first-occurrence replacement per
extracted import entry (duplicates preserved), not one per distinct
location.  The module at `/x/M.cdc` declares the import location
`"0000000000000000"` twice; the location resolves (its normalized path
`/x/0000000000000000` is a configured contract with target address
`…05`), and the output rewrites both quoted occurrences — no occurrence
after the first remains the original quoted string. -/
theorem resolveImports_duplicate_counterexample :
    Resolver.ResolveImports
        { code := "import A from \"0000000000000000\"\nimport B from \"0000000000000000\"\n"
          program := [.stringLoc "0000000000000000", .stringLoc "0000000000000000"] }
        "/x/M.cdc"
        [{ name := "Z", source := "/x/0000000000000000", target := "0000000000000005" }] []
      = .ok ("import A from 0x0000000000000005\nimport B from 0x0000000000000005\n",
             { code := "import A from 0x0000000000000005\nimport B from 0x0000000000000005\n"
               program := [.stringLoc "0000000000000000", .stringLoc "0000000000000000"] })
    ∧ stringContains "import A from 0x0000000000000005\nimport B from 0x0000000000000005\n"
        "\"0000000000000000\"" = false := by
  refine ⟨by decide, by decide⟩

/-! ## C8 — resolution and the stored raw text -/

/-- C8 counterexample: `Resolver.ResolveImports` rewrites the resolver's
stored code.  For the module at `/y/M.cdc` with one resolvable import,
the call succeeds and the post-call resolver state carries the rewritten
text, not the raw text fixed at creation time — so the stored raw text
is not bit-for-bit unchanged and repeated resolution calls operate on
already-rewritten code. -/
theorem resolveImports_mutates_code_counterexample :
    Resolver.ResolveImports
        { code := "import A from \"0000000000000000\"\ncontract M {}"
          program := [.stringLoc "0000000000000000"] }
        "/y/M.cdc"
        [{ name := "Z", source := "/y/0000000000000000", target := "0000000000000007" }] []
      = .ok ("import A from 0x0000000000000007\ncontract M {}",
             { code := "import A from 0x0000000000000007\ncontract M {}"
               program := [.stringLoc "0000000000000000"] })
    ∧ ("import A from 0x0000000000000007\ncontract M {}" : String)
        ≠ "import A from \"0000000000000000\"\ncontract M {}" := by
  refine ⟨by decide, by decide⟩

/-! ## Replacement lemmas -/

/-- A pattern matches at the start of itself followed by anything. -/
theorem prefixMatch_self_append (p t : List Char) : prefixMatch p (p ++ t) = true := by
  induction p with
  | nil => rfl
  | cons c cs ih => simp [prefixMatch, ih]

/-- `String.append` is concatenation of the underlying character
lists. -/
theorem string_data_append (a b : String) : (a ++ b).data = a.data ++ b.data := rfl

/-- Characterization of the single-replacement scan: replacing inside
`pre ++ old ++ post`, where no occurrence of `old` starts inside `pre`,
rewrites exactly the shown occurrence and leaves `post` — including any
further occurrences of `old` it contains — untouched. -/
theorem replaceFirstAux_split (old new : List Char) (hold : old ≠ []) :
    ∀ (pre post : List Char),
      (∀ i < pre.length, prefixMatch old ((pre ++ old ++ post).drop i) = false) →
      replaceFirstAux old new (pre ++ old ++ post) = pre ++ new ++ post := by
  intro pre
  induction pre with
  | nil =>
    intro post _
    match old, hold with
    | o :: os, _ =>
      have hm : prefixMatch (o :: os) (o :: (os ++ post)) = true := by
        have := prefixMatch_self_append (o :: os) post
        simpa using this
      have hd : List.drop (o :: os).length (o :: (os ++ post)) = post := by
        have := List.drop_left (o :: os) post
        simp only [List.cons_append] at this
        exact this
      show replaceFirstAux (o :: os) new (o :: (os ++ post)) = new ++ post
      simp [replaceFirstAux, hm, hd]
  | cons c pre ih =>
    intro post hmin
    have h0 : prefixMatch old (c :: (pre ++ old ++ post)) = false := by
      have := hmin 0 (Nat.succ_pos _)
      simpa using this
    show replaceFirstAux old new (c :: (pre ++ old ++ post)) = c :: (pre ++ new ++ post)
    simp only [replaceFirstAux, h0, Bool.false_eq_true, if_false]
    exact congrArg (c :: ·)
      (ih post fun i hi => by simpa using hmin (i + 1) (Nat.succ_lt_succ hi))

/-- The scan of `replaceAllAux` on the empty string. -/
theorem replaceAllAux_nil (o : Char) (os new : List Char) (fuel : Nat) :
    replaceAllAux o os new fuel [] = [] := by
  cases fuel <;> rfl

/-- Deleting every occurrence of a pattern from `stem ++ pat`, when no
occurrence of the pattern starts inside `stem`, leaves exactly
`stem`. -/
theorem replaceAllAux_strip (o : Char) (os : List Char) :
    ∀ (stem : List Char) (fuel : Nat), (stem ++ (o :: os)).length ≤ fuel →
      (∀ i < stem.length, prefixMatch (o :: os) ((stem ++ (o :: os)).drop i) = false) →
      replaceAllAux o os [] fuel (stem ++ (o :: os)) = stem := by
  intro stem
  induction stem with
  | nil =>
    intro fuel hfuel _
    match fuel, hfuel with
    | n + 1, _ =>
      have hm : prefixMatch (o :: os) (o :: os) = true := by
        simpa using prefixMatch_self_append (o :: os) []
      show replaceAllAux o os [] (n + 1) (o :: os) = []
      simp [replaceAllAux, hm, List.drop_length, replaceAllAux_nil]
  | cons c stem ih =>
    intro fuel hfuel hmin
    match fuel, hfuel with
    | n + 1, hfuel =>
      have h0 : prefixMatch (o :: os) (c :: (stem ++ (o :: os))) = false := by
        have := hmin 0 (Nat.succ_pos _)
        simpa using this
      have hf : (stem ++ (o :: os)).length ≤ n := by
        have : (stem ++ (o :: os)).length + 1 ≤ n + 1 := by simpa using hfuel
        exact Nat.succ_le_succ_iff.mp this
      show replaceAllAux o os [] (n + 1) (c :: (stem ++ (o :: os))) = c :: stem
      simp only [replaceAllAux, h0, Bool.false_eq_true, if_false]
      exact congrArg (c :: ·)
        (ih n hf fun i hi => by simpa using hmin (i + 1) (Nat.succ_lt_succ hi))

/-- C7 (amended): the alias key is the final path segment with every
occurrence of `".cdc"` removed.  When `".cdc"` occurs in the final
segment only as the trailing extension — no occurrence of the pattern
starts before the trailing one — the key is exactly the segment with
that extension stripped, which is the case the claim describes. -/
theorem getAliasForImport_trailing_extension :
    ∀ (loc stem : String),
      (pathBase loc).data = stem.data ++ ['.', 'c', 'd', 'c'] →
      (∀ i < stem.data.length,
        prefixMatch ['.', 'c', 'd', 'c'] ((stem.data ++ ['.', 'c', 'd', 'c']).drop i) = false) →
      getAliasForImport loc = stem := by
  intro loc stem hbase hmin
  show (⟨replaceAllAux '.' ['c', 'd', 'c'] [] (pathBase loc).data.length (pathBase loc).data⟩ :
      String) = stem
  rw [hbase]
  have h := replaceAllAux_strip '.' ['c', 'd', 'c'] stem.data
    (stem.data ++ ['.', 'c', 'd', 'c']).length (Nat.le_refl _) hmin
  calc (⟨replaceAllAux '.' ['c', 'd', 'c'] [] (stem.data ++ ['.', 'c', 'd', 'c']).length
          (stem.data ++ ['.', 'c', 'd', 'c'])⟩ : String)
      = ⟨stem.data⟩ := congrArg String.mk h
    _ = stem := rfl

/-- Witness for C7 (amended) at `./Foo.cdc`: the alias key is `Foo`. -/
theorem getAliasForImport_trailing_extension_witness :
    getAliasForImport "./Foo.cdc" = "Foo" :=
  getAliasForImport_trailing_extension "./Foo.cdc" "Foo" (by decide) (by decide)

/-- The rewrite loop of the ad-hoc resolver when every extracted import
resolves: the result performs one first-occurrence replacement per
extracted import entry — duplicates included — and the final resolver
state stores the rewritten code. -/
theorem resolveImportsLoop_ok (st : List (String × String)) (codePath : String) :
    ∀ (imps : List String) (r : Resolver),
      (∀ imp ∈ imps, (mapLookup st (absolutePath codePath imp)).getD "" ≠ "") →
      resolveImportsLoop st codePath r imps =
        .ok (imps.foldl (fun code imp =>
               stringsReplaceOnce code ("\"" ++ imp ++ "\"")
                 ("0x" ++ (mapLookup st (absolutePath codePath imp)).getD "")) r.code,
             { code := imps.foldl (fun code imp =>
                 stringsReplaceOnce code ("\"" ++ imp ++ "\"")
                   ("0x" ++ (mapLookup st (absolutePath codePath imp)).getD "")) r.code
               program := r.program }) := by
  intro imps
  induction imps with
  | nil => intro r _; rfl
  | cons imp rest ih =>
    intro r hres
    have htgt : (mapLookup st (absolutePath codePath imp)).getD "" ≠ "" :=
      hres imp (List.mem_cons_self _ _)
    show (if (mapLookup st (absolutePath codePath imp)).getD "" ≠ "" then
        resolveImportsLoop st codePath
          { r with code := r.replaceImport imp ((mapLookup st (absolutePath codePath imp)).getD "") }
          rest
      else _) = _
    rw [if_pos htgt]
    have := ih { r with
                 code := r.replaceImport imp ((mapLookup st (absolutePath codePath imp)).getD "") }
      (fun i hi => hres i (List.mem_cons_of_mem _ hi))
    rw [this]
    rfl

/-- C4 (amended): (deployment mode) for a contract whose resolved
dependency map holds a single location, `TranspiledCode` rewrites
exactly the first textual occurrence of the quoted location — the part
of the text after it, including every further occurrence of the quoted
location, is returned verbatim; (ad-hoc mode) `ResolveImports` performs
one first-occurrence replacement per extracted import entry, duplicates
included, so a module importing the same location more than once has one
replacement applied per import declaration rather than per distinct
location. -/
theorem substitution_first_occurrence_amended :
    (∀ (c : Contract) (loc : String) (dep : DepRef) (pre post : List Char),
      c.dependencies = [(loc, dep)] → c.aliases = [] →
      c.code.data = pre ++ ("\"" ++ loc ++ "\"").data ++ post →
      (∀ i < pre.length,
        prefixMatch ("\"" ++ loc ++ "\"").data
          ((pre ++ ("\"" ++ loc ++ "\"").data ++ post).drop i) = false) →
      (c.TranspiledCode).data = pre ++ ("0x" ++ dep.target).data ++ post)
    ∧ (∀ (r : Resolver) (codePath : String) (contracts : List ProjectContract)
        (aliases : List (String × String)),
      (∀ imp ∈ r.getFileImports,
        (mapLookup (getSourceTarget contracts aliases) (absolutePath codePath imp)).getD "" ≠ "") →
      Resolver.ResolveImports r codePath contracts aliases =
        .ok (r.getFileImports.foldl (fun code imp =>
               stringsReplaceOnce code ("\"" ++ imp ++ "\"")
                 ("0x" ++ (mapLookup (getSourceTarget contracts aliases)
                     (absolutePath codePath imp)).getD "")) r.code,
             { code := r.getFileImports.foldl (fun code imp =>
                 stringsReplaceOnce code ("\"" ++ imp ++ "\"")
                   ("0x" ++ (mapLookup (getSourceTarget contracts aliases)
                       (absolutePath codePath imp)).getD "")) r.code
               program := r.program })) := by
  constructor
  · intro c loc dep pre post hdep hal hcode hmin
    have hpat : ("\"" ++ loc ++ "\"").data = '"' :: (loc.data ++ ['"']) := rfl
    have htc : c.TranspiledCode = stringsReplaceOnce c.code ("\"" ++ loc ++ "\"")
        ("0x" ++ dep.target) := by
      show (c.aliases.foldl _ (c.dependencies.foldl _ c.code)) = _
      rw [hdep, hal]
      rfl
    rw [htc]
    have hniln : ¬ ("\"" ++ loc ++ "\"").data = [] := by rw [hpat]; exact List.cons_ne_nil _ _
    show (if ("\"" ++ loc ++ "\"").data = [] then _ else
        (⟨replaceFirstAux ("\"" ++ loc ++ "\"").data ("0x" ++ dep.target).data c.code.data⟩ :
          String)).data = _
    rw [if_neg hniln]
    show replaceFirstAux ("\"" ++ loc ++ "\"").data ("0x" ++ dep.target).data c.code.data = _
    rw [hcode]
    exact replaceFirstAux_split _ _ (by rw [hpat]; exact List.cons_ne_nil _ _) pre post hmin
  · intro r codePath contracts aliases hres
    exact resolveImportsLoop_ok (getSourceTarget contracts aliases) codePath r.getFileImports r hres

/-- Witness for C4 (amended) at concrete inputs: the deployment-mode
part at a module whose text holds `"./Dup.cdc"` twice with a single
resolved dependency entry (the second occurrence survives verbatim in
the tail), and the ad-hoc part at a module with two resolvable import
declarations. -/
theorem substitution_first_occurrence_amended_witness :
    (Contract.TranspiledCode
        { index := 0, name := "D", source := "/x/D.cdc", target := "0000000000000009"
          code := "import D from \"./Dup.cdc\"\nimport E from \"./Dup.cdc\"\n"
          program := [.stringLoc "./Dup.cdc", .stringLoc "./Dup.cdc"]
          dependencies := [("./Dup.cdc", { index := 1, target := "0000000000000005" })]
          aliases := [] }).data
      = ("import D from ").data ++ ("0x0000000000000005").data
          ++ ("\nimport E from \"./Dup.cdc\"\n").data
    ∧ Resolver.ResolveImports
        { code := "import A from \"0000000000000000\"\nimport B from \"0000000000000000\"\n"
          program := [.stringLoc "a", .stringLoc "b"] }
        "/w/M.cdc"
        [{ name := "Z", source := "/w/0000000000000000", target := "000000000000000a" }] []
      = .ok ("import A from 0x000000000000000a\nimport B from 0x000000000000000a\n",
             { code := "import A from 0x000000000000000a\nimport B from 0x000000000000000a\n"
               program := [.stringLoc "a", .stringLoc "b"] }) := by
  constructor
  · exact substitution_first_occurrence_amended.1
      { index := 0, name := "D", source := "/x/D.cdc", target := "0000000000000009"
        code := "import D from \"./Dup.cdc\"\nimport E from \"./Dup.cdc\"\n"
        program := [.stringLoc "./Dup.cdc", .stringLoc "./Dup.cdc"]
        dependencies := [("./Dup.cdc", { index := 1, target := "0000000000000005" })]
        aliases := [] }
      "./Dup.cdc" { index := 1, target := "0000000000000005" }
      ("import D from ").data ("\nimport E from \"./Dup.cdc\"\n").data
      rfl rfl (by decide) (by decide)
  · have h := substitution_first_occurrence_amended.2
      { code := "import A from \"0000000000000000\"\nimport B from \"0000000000000000\"\n"
        program := [.stringLoc "a", .stringLoc "b"] }
      "/w/M.cdc"
      [{ name := "Z", source := "/w/0000000000000000", target := "000000000000000a" }] []
      (by decide)
    rw [h]
    decide

/-! ## Path lemmas -/

/-- `cleanStep` ignores empty segments. -/
theorem cleanStep_nil_seg (r : Bool) (acc : List (List Char)) : cleanStep r acc [] = acc := by
  simp [cleanStep]

/-- `pathClean` never returns the empty string. -/
theorem pathClean_ne_nil (p : String) : (pathClean p).data ≠ [] := by
  simp only [pathClean]
  split
  · simp
  · split
    · exact List.cons_ne_nil _ _
    · split
      · simp
      · rename_i hbody
        exact hbody

/-- `pathDir` never returns the empty string. -/
theorem pathDir_ne_nil (p : String) : (pathDir p).data ≠ [] :=
  pathClean_ne_nil _

/-- A doubled leading slash cleans like a single one. -/
theorem pathClean_drop_second_slash (l : List Char) :
    pathClean ⟨'/' :: '/' :: l⟩ = pathClean ⟨'/' :: l⟩ := by
  have h2 : splitSlash ('/' :: '/' :: l) = [] :: splitSlash ('/' :: l) := by
    simp [splitSlash]
  simp [pathClean, h2, cleanStep_nil_seg]

/-- C6 (amended): path normalization always joins the location onto the importing
module's directory — `Clean(Dir(base) + "/" + loc)` — with no
special treatment of an already-absolute location; the normalized key
equals the cleaned location itself only in degenerate cases such as the importing
module sitting at the root (`Dir(base) = "/"`). -/
theorem absolutePath_absolute_location_amended :
    (∀ (base loc : String), absolutePath base loc = pathClean (pathDir base ++ "/" ++ loc))
    ∧ (∀ (base loc : String), pathDir base = "/" → loc.data.head? = some '/' →
        absolutePath base loc = pathClean loc) := by
  have hjoin : ∀ (base loc : String),
      absolutePath base loc = pathClean (pathDir base ++ "/" ++ loc) := by
    intro base loc
    show pathJoin (pathDir base) loc = _
    unfold pathJoin
    rw [if_neg (pathDir_ne_nil base)]
  refine ⟨hjoin, ?_⟩
  intro base loc hdir hloc
  rw [hjoin, hdir]
  obtain ⟨t, ht⟩ : ∃ t, loc.data = '/' :: t := by
    cases hl : loc.data with
    | nil => rw [hl] at hloc; cases hloc
    | cons c cs =>
      rw [hl] at hloc
      simp only [List.head?_cons, Option.some_inj] at hloc
      exact ⟨cs, by rw [hloc]⟩
  have hrepr : ("/" ++ "/" ++ loc : String) = ⟨'/' :: '/' :: loc.data⟩ := rfl
  rw [hrepr, ht]
  calc pathClean ⟨'/' :: '/' :: '/' :: t⟩
      = pathClean ⟨'/' :: '/' :: t⟩ := pathClean_drop_second_slash _
    _ = pathClean ⟨'/' :: t⟩ := pathClean_drop_second_slash _
    _ = pathClean loc := by rw [← ht]

/-- Witness for C6 (amended): the general join shape at
`/a/M.cdc` + `/c/D.cdc`, and the degenerate root-directory case at
`/M.cdc` + `/c/D.cdc`. -/
theorem absolutePath_absolute_location_amended_witness :
    absolutePath "/a/M.cdc" "/c/D.cdc" = pathClean (pathDir "/a/M.cdc" ++ "/" ++ "/c/D.cdc")
    ∧ absolutePath "/M.cdc" "/c/D.cdc" = pathClean "/c/D.cdc" :=
  ⟨absolutePath_absolute_location_amended.1 "/a/M.cdc" "/c/D.cdc",
   absolutePath_absolute_location_amended.2 "/M.cdc" "/c/D.cdc" (by decide) (by decide)⟩
/-! ## Resolution lemmas -/

/-- An error of the per-contract resolution loop is the unresolved-import
error of some import location of the contract that matches neither the
working set nor the alias table. -/
theorem resolveContractImports_error (all : List Contract) (al : List (String × String)) :
    ∀ (imps : List String) (c : Contract) (e : PrepError),
      resolveContractImports all al c imps = .error e →
      ∃ loc, loc ∈ imps ∧ lookupContract all (absolutePath c.source loc) = none
        ∧ mapLookup al (getAliasForImport loc) = none
        ∧ e = .unresolvedImport c.name (absolutePath c.source loc) := by
  intro imps
  induction imps with
  | nil =>
    intro c e h
    exact absurd h (by simp [resolveContractImports])
  | cons loc rest ih =>
    intro c e h
    simp only [resolveContractImports] at h
    cases hlc : lookupContract all (absolutePath c.source loc) with
    | some d =>
      rw [hlc] at h
      obtain ⟨l2, hl2, ha, hb, he⟩ := ih _ _ h
      exact ⟨l2, List.mem_cons_of_mem _ hl2, ha, hb, he⟩
    | none =>
      rw [hlc] at h
      cases hal : mapLookup al (getAliasForImport loc) with
      | some a =>
        rw [hal] at h
        obtain ⟨l2, hl2, ha, hb, he⟩ := ih _ _ h
        exact ⟨l2, List.mem_cons_of_mem _ hl2, ha, hb, he⟩
      | none =>
        rw [hal] at h
        cases h
        exact ⟨loc, List.mem_cons_self _ _, hlc, hal, rfl⟩

/-- A contract holding an import location that matches neither table
makes the per-contract resolution loop fail. -/
theorem resolveContractImports_unresolvable (all : List Contract) (al : List (String × String)) :
    ∀ (imps : List String) (c : Contract) (loc : String), loc ∈ imps →
      lookupContract all (absolutePath c.source loc) = none →
      mapLookup al (getAliasForImport loc) = none →
      ∃ e, resolveContractImports all al c imps = .error e := by
  intro imps
  induction imps with
  | nil => intro c loc h; cases h
  | cons l0 rest ih =>
    intro c loc hmem hlc hal
    simp only [resolveContractImports]
    cases hl0 : lookupContract all (absolutePath c.source l0) with
    | some d =>
      rcases List.mem_cons.mp hmem with h1 | h1
      · rw [h1] at hlc; rw [hlc] at hl0; cases hl0
      · exact ih _ loc h1 hlc hal
    | none =>
      cases ha0 : mapLookup al (getAliasForImport l0) with
      | some a =>
        rcases List.mem_cons.mp hmem with h1 | h1
        · rw [h1] at hal; rw [hal] at ha0; cases ha0
        · exact ih _ loc h1 hlc hal
      | none => exact ⟨_, rfl⟩

/-- An error of the working-set resolution pass comes from resolving
some contract of the set. -/
theorem resolveAllContracts_error (all : List Contract) (al : List (String × String)) :
    ∀ (cs : List Contract) (e : PrepError), resolveAllContracts all al cs = .error e →
      ∃ c ∈ cs, resolveContractImports all al c c.imports = .error e := by
  intro cs
  induction cs with
  | nil => intro e h; exact absurd h (by simp [resolveAllContracts])
  | cons c0 rest ih =>
    intro e h
    simp only [resolveAllContracts] at h
    cases hr : resolveContractImports all al c0 c0.imports with
    | error e0 =>
      rw [hr] at h
      cases h
      exact ⟨c0, List.mem_cons_self _ _, hr⟩
    | ok c1 =>
      rw [hr] at h
      cases hrest : resolveAllContracts all al rest with
      | error e1 =>
        rw [hrest] at h
        cases h
        obtain ⟨c, hc, hres⟩ := ih _ hrest
        exact ⟨c, List.mem_cons_of_mem _ hc, hres⟩
      | ok rs =>
        rw [hrest] at h
        cases h

/-- Conversely, a failing contract anywhere in the set makes the whole
resolution pass fail (fail-fast, no partial result). -/
theorem resolveAllContracts_error_of_mem (all : List Contract) (al : List (String × String)) :
    ∀ (cs : List Contract) (c : Contract), c ∈ cs →
      (∃ e, resolveContractImports all al c c.imports = .error e) →
      ∃ e1, resolveAllContracts all al cs = .error e1 := by
  intro cs
  induction cs with
  | nil => intro c h; cases h
  | cons c0 rest ih =>
    intro c hmem ⟨e, he⟩
    cases hr : resolveContractImports all al c0 c0.imports with
    | error e0 => exact ⟨e0, by simp only [resolveAllContracts, hr]⟩
    | ok c1 =>
      have hcr : c ∈ rest := by
        rcases List.mem_cons.mp hmem with h1 | h1
        · rw [h1] at he; rw [he] at hr; cases hr
        · exact h1
      obtain ⟨e1, he1⟩ := ih c hcr ⟨e, he⟩
      exact ⟨e1, by simp only [resolveAllContracts, hr, he1]⟩

/-- An unresolvable extracted import anywhere in the list makes the
ad-hoc rewrite loop fail with the unresolved-import message of the first
such import. -/
theorem resolveImportsLoop_unresolvable (st : List (String × String)) (codePath : String) :
    ∀ (imps : List String) (r : Resolver),
      (∃ imp ∈ imps, (mapLookup st (absolutePath codePath imp)).getD "" = "") →
      ∃ imp, imp ∈ imps ∧
        resolveImportsLoop st codePath r imps =
          .error ("import " ++ imp ++ " could not be resolved from the configuration") := by
  intro imps
  induction imps with
  | nil =>
    rintro r ⟨imp, h, _⟩
    cases h
  | cons i0 rest ih =>
    rintro r ⟨imp, hmem, hbad⟩
    by_cases h0 : (mapLookup st (absolutePath codePath i0)).getD "" = ""
    · refine ⟨i0, List.mem_cons_self _ _, ?_⟩
      show (if (mapLookup st (absolutePath codePath i0)).getD "" ≠ "" then _ else _) = _
      rw [if_neg (not_not_intro h0)]
    · have hrest : imp ∈ rest := by
        rcases List.mem_cons.mp hmem with h1 | h1
        · exact absurd (h1 ▸ hbad) h0
        · exact h1
      obtain ⟨i1, hm1, hres⟩ := ih
        { r with code := r.replaceImport i0 ((mapLookup st (absolutePath codePath i0)).getD "") }
        ⟨imp, hrest, hbad⟩
      refine ⟨i1, List.mem_cons_of_mem _ hm1, ?_⟩
      show (if (mapLookup st (absolutePath codePath i0)).getD "" ≠ "" then _ else _) = _
      rw [if_pos h0]
      exact hres

/-- C3 (amended): in deployment mode an unresolved import aborts the
whole batch with an error naming the importing module and the normalized import
path; in ad-hoc mode an unresolved extracted import aborts the
whole batch with an error naming only the extracted import string — the importing
module is not named.  In both modes no ordering or rewritten
text is returned for the batch. -/
theorem unresolved_import_failfast_amended :
    (∀ (p : Preprocessor),
      (∃ c ∈ p.contracts, ∃ loc ∈ c.imports,
        lookupContract p.contracts (absolutePath c.source loc) = none ∧
        mapLookup p.aliases (getAliasForImport loc) = none) →
      ∃ c0, c0 ∈ p.contracts ∧ ∃ loc0, loc0 ∈ c0.imports ∧
        lookupContract p.contracts (absolutePath c0.source loc0) = none ∧
        mapLookup p.aliases (getAliasForImport loc0) = none ∧
        p.PrepareForDeployment =
          .error (.unresolvedImport c0.name (absolutePath c0.source loc0)))
    ∧ (∀ (r : Resolver) (codePath : String) (contracts : List ProjectContract)
        (aliases : List (String × String)),
      (∃ imp ∈ r.getFileImports,
        (mapLookup (getSourceTarget contracts aliases) (absolutePath codePath imp)).getD "" = "") →
      ∃ imp, imp ∈ r.getFileImports ∧
        Resolver.ResolveImports r codePath contracts aliases =
          .error ("import " ++ imp ++ " could not be resolved from the configuration")) := by
  constructor
  · rintro p ⟨c, hc, loc, hloc, h1, h2⟩
    obtain ⟨e, he⟩ :=
      resolveContractImports_unresolvable p.contracts p.aliases c.imports c loc hloc h1 h2
    obtain ⟨e1, he1⟩ :=
      resolveAllContracts_error_of_mem p.contracts p.aliases p.contracts c hc ⟨e, he⟩
    obtain ⟨c0, hc0, he0⟩ := resolveAllContracts_error p.contracts p.aliases p.contracts e1 he1
    obtain ⟨loc0, hl0, ha, hb, heq⟩ :=
      resolveContractImports_error p.contracts p.aliases c0.imports c0 e1 he0
    refine ⟨c0, hc0, loc0, hl0, ha, hb, ?_⟩
    unfold Preprocessor.PrepareForDeployment
    rw [he1, heq]
  · intro r codePath contracts aliases hbad
    exact resolveImportsLoop_unresolvable (getSourceTarget contracts aliases) codePath
      r.getFileImports r hbad

/-- Witness for C3 (amended): a deployment working set holding only a
module that imports an unregistered path, and an ad-hoc module with an
unresolvable import. -/
theorem unresolved_import_failfast_amended_witness :
    (∃ c0, c0 ∈ ({ aliases := [], contracts := [sampleBdepA] } : Preprocessor).contracts ∧
      ∃ loc0, loc0 ∈ c0.imports ∧
        lookupContract [sampleBdepA] (absolutePath c0.source loc0) = none ∧
        mapLookup ([] : List (String × String)) (getAliasForImport loc0) = none ∧
        Preprocessor.PrepareForDeployment { aliases := [], contracts := [sampleBdepA] } =
          .error (.unresolvedImport c0.name (absolutePath c0.source loc0)))
    ∧ (∃ imp, imp ∈ Resolver.getFileImports
        { code := "import Bar from \"./Bar.cdc\"", program := [.stringLoc "./Bar.cdc"] } ∧
      Resolver.ResolveImports
          { code := "import Bar from \"./Bar.cdc\"", program := [.stringLoc "./Bar.cdc"] }
          "/z/Q.cdc" [] [] =
        .error ("import " ++ imp ++ " could not be resolved from the configuration")) :=
  ⟨unresolved_import_failfast_amended.1 { aliases := [], contracts := [sampleBdepA] } (by decide),
   unresolved_import_failfast_amended.2
     { code := "import Bar from \"./Bar.cdc\"", program := [.stringLoc "./Bar.cdc"] }
     "/z/Q.cdc" [] [] (by decide)⟩

/-! ## Preservation lemmas -/

/-- Elements of `eraseFirst l a` come from `l`. -/
theorem eraseFirst_subset {α : Type} [DecidableEq α] :
    ∀ (l : List α) (a x : α), x ∈ eraseFirst l a → x ∈ l := by
  intro l a
  induction l with
  | nil => intro x h; cases h
  | cons y ys ih =>
    intro x h
    simp only [eraseFirst] at h
    by_cases hy : y = a
    · rw [if_pos hy] at h
      exact List.mem_cons_of_mem _ h
    · rw [if_neg hy] at h
      rcases List.mem_cons.mp h with h1 | h1
      · exact h1 ▸ List.mem_cons_self _ _
      · exact List.mem_cons_of_mem _ (ih x h1)

/-- Removing a present element shortens the list by exactly one. -/
theorem eraseFirst_length {α : Type} [DecidableEq α] :
    ∀ (l : List α) (a : α), a ∈ l → (eraseFirst l a).length + 1 = l.length := by
  intro l a
  induction l with
  | nil => intro h; cases h
  | cons y ys ih =>
    intro h
    simp only [eraseFirst]
    by_cases hy : y = a
    · rw [if_pos hy]; rfl
    · rw [if_neg hy]
      have : a ∈ ys := by
        rcases List.mem_cons.mp h with h1 | h1
        · exact absurd h1.symm hy
        · exact h1
      simp only [List.length_cons, ih this]

/-- A list is a permutation of a present element consed onto its
removal. -/
theorem perm_cons_eraseFirst {α : Type} [DecidableEq α] :
    ∀ (l : List α) (a : α), a ∈ l → l.Perm (a :: eraseFirst l a) := by
  intro l a
  induction l with
  | nil => intro h; cases h
  | cons y ys ih =>
    intro h
    simp only [eraseFirst]
    by_cases hy : y = a
    · rw [if_pos hy, hy]
    · rw [if_neg hy]
      have : a ∈ ys := by
        rcases List.mem_cons.mp h with h1 | h1
        · exact absurd h1.symm hy
        · exact h1
      exact ((ih this).cons y).trans (List.Perm.swap a y _)

/-- An element distinct from the removed one survives the removal. -/
theorem mem_eraseFirst_of_ne {α : Type} [DecidableEq α] :
    ∀ (l : List α) (a x : α), x ∈ l → x ≠ a → x ∈ eraseFirst l a := by
  intro l a
  induction l with
  | nil => intro x h; cases h
  | cons y ys ih =>
    intro x h hne
    simp only [eraseFirst]
    by_cases hy : y = a
    · rw [if_pos hy]
      rcases List.mem_cons.mp h with h1 | h1
      · exact absurd (h1.trans hy) hne
      · exact h1
    · rw [if_neg hy]
      rcases List.mem_cons.mp h with h1 | h1
      · exact h1 ▸ List.mem_cons_self _ _
      · exact List.mem_cons_of_mem _ (ih x h1 hne)

/-- Everything the sort returns was among the sorted nodes. -/
theorem kahnStep_ok_subset (edges : List (Nat × Nat)) :
    ∀ (fuel : Nat) (remaining out : List Contract),
      kahnStep edges fuel remaining = .ok out → ∀ x ∈ out, x ∈ remaining := by
  intro fuel
  induction fuel with
  | zero =>
    intro remaining out h x hx
    simp only [kahnStep] at h
    by_cases hre : remaining.isEmpty = true
    · rw [if_pos hre] at h
      cases h
      cases hx
    · rw [if_neg hre] at h
      cases h
  | succ n ih =>
    intro remaining out h x hx
    simp only [kahnStep] at h
    cases hf : remaining.find? (fun c => noIncoming edges remaining c) with
    | some c =>
      rw [hf] at h
      have h2 : (match kahnStep edges n (eraseFirst remaining c) with
        | .ok rest => (.ok (c :: rest) : Except PrepError (List Contract))
        | .error e => .error e) = .ok out := h
      cases hk : kahnStep edges n (eraseFirst remaining c) with
      | ok rest =>
        rw [hk] at h2
        cases h2
        rcases List.mem_cons.mp hx with h1 | h1
        · exact h1 ▸ List.mem_of_find?_eq_some hf
        · exact eraseFirst_subset _ _ _ (ih _ _ hk x h1)
      | error e => rw [hk] at h2; cases h2
    | none =>
      rw [hf] at h
      by_cases hre : remaining.isEmpty = true
      · rw [if_pos hre] at h
        cases h
        cases hx
      · rw [if_neg hre] at h
        cases h

/-- The per-contract resolution loop only ever touches the
`dependencies` and `aliases` maps: every other field of the contract is
returned unchanged. -/
theorem resolveContractImports_preserves (all : List Contract) (al : List (String × String)) :
    ∀ (imps : List String) (c c1 : Contract),
      resolveContractImports all al c imps = .ok c1 →
      c1.index = c.index ∧ c1.name = c.name ∧ c1.source = c.source ∧
        c1.target = c.target ∧ c1.code = c.code ∧ c1.program = c.program := by
  intro imps
  induction imps with
  | nil =>
    intro c c1 h
    cases h
    exact ⟨rfl, rfl, rfl, rfl, rfl, rfl⟩
  | cons loc rest ih =>
    intro c c1 h
    simp only [resolveContractImports] at h
    cases hlc : lookupContract all (absolutePath c.source loc) with
    | some d =>
      rw [hlc] at h
      exact ih (c.addDependency loc { index := d.index, target := d.target }) c1 h
    | none =>
      rw [hlc] at h
      cases hal : mapLookup al (getAliasForImport loc) with
      | some a =>
        rw [hal] at h
        exact ih (c.addAlias loc (flowHexToAddress a)) c1 h
      | none => rw [hal] at h; cases h

/-- Every contract of a successful resolution pass is the resolution of
some contract of the working set. -/
theorem resolveAllContracts_ok_mem (all : List Contract) (al : List (String × String)) :
    ∀ (cs rs : List Contract), resolveAllContracts all al cs = .ok rs →
      ∀ r ∈ rs, ∃ c ∈ cs, resolveContractImports all al c c.imports = .ok r := by
  intro cs
  induction cs with
  | nil =>
    intro rs h r hr
    cases h
    cases hr
  | cons c0 rest ih =>
    intro rs h r hr
    simp only [resolveAllContracts] at h
    cases h0 : resolveContractImports all al c0 c0.imports with
    | error e => rw [h0] at h; cases h
    | ok c1 =>
      rw [h0] at h
      cases h1 : resolveAllContracts all al rest with
      | error e => rw [h1] at h; cases h
      | ok rs1 =>
        rw [h1] at h
        cases h
        rcases List.mem_cons.mp hr with h2 | h2
        · exact ⟨c0, List.mem_cons_self _ _, h2 ▸ h0⟩
        · obtain ⟨c, hc, hres⟩ := ih _ h1 r h2
          exact ⟨c, List.mem_cons_of_mem _ hc, hres⟩

/-- Conversely, every contract of the working set has its resolution in
the output of a successful resolution pass. -/
theorem resolveAllContracts_ok_mem_rev (all : List Contract) (al : List (String × String)) :
    ∀ (cs rs : List Contract), resolveAllContracts all al cs = .ok rs →
      ∀ c ∈ cs, ∃ r ∈ rs, resolveContractImports all al c c.imports = .ok r := by
  intro cs
  induction cs with
  | nil =>
    intro rs h c hc
    cases hc
  | cons c0 rest ih =>
    intro rs h c hc
    simp only [resolveAllContracts] at h
    cases h0 : resolveContractImports all al c0 c0.imports with
    | error e => rw [h0] at h; cases h
    | ok c1 =>
      rw [h0] at h
      cases h1 : resolveAllContracts all al rest with
      | error e => rw [h1] at h; cases h
      | ok rs1 =>
        rw [h1] at h
        cases h
        rcases List.mem_cons.mp hc with h2 | h2
        · exact ⟨c1, List.mem_cons_self _ _, h2 ▸ h0⟩
        · obtain ⟨r, hr, hres⟩ := ih _ h1 c h2
          exact ⟨r, List.mem_cons_of_mem _ hr, hres⟩

/-- The ad-hoc rewrite loop's returned code is exactly what it stored in
the resolver, and it never touches the parsed program. -/
theorem resolveImportsLoop_state (st : List (String × String)) (codePath : String) :
    ∀ (imps : List String) (r : Resolver) (out : String) (r1 : Resolver),
      resolveImportsLoop st codePath r imps = .ok (out, r1) →
      r1.code = out ∧ r1.program = r.program := by
  intro imps
  induction imps with
  | nil =>
    intro r out r1 h
    cases h
    exact ⟨rfl, rfl⟩
  | cons i0 rest ih =>
    intro r out r1 h
    simp only [resolveImportsLoop] at h
    split at h
    · exact (ih _ _ _ h).imp id (fun hp => hp)
    · cases h

/-- C8 (amended): deployment-mode resolution never rewrites stored raw
text — every contract of a successful `PrepareForDeployment` agrees with
a registered contract of the working set on `index`, `name`, `source`,
`target`, raw `code` and parsed `program` (resolution only populates the
dependency and alias maps, and transpiled text is computed on demand).
The ad-hoc `ResolveImports`, by contrast, stores the rewritten text back
into the resolver: the post-call state's `code` field equals the
returned rewritten code (only the parsed program is left untouched), so
the ad-hoc resolver's stored raw text is not preserved. -/
theorem resolution_frame_amended :
    (∀ (p : Preprocessor) (sorted : List Contract),
      p.PrepareForDeployment = .ok sorted →
      ∀ s ∈ sorted, ∃ c ∈ p.contracts,
        s.index = c.index ∧ s.name = c.name ∧ s.source = c.source ∧
          s.target = c.target ∧ s.code = c.code ∧ s.program = c.program)
    ∧ (∀ (r : Resolver) (codePath : String) (contracts : List ProjectContract)
        (aliases : List (String × String)) (out : String) (r1 : Resolver),
      Resolver.ResolveImports r codePath contracts aliases = .ok (out, r1) →
      r1.code = out ∧ r1.program = r.program) := by
  constructor
  · intro p sorted h s hs
    unfold Preprocessor.PrepareForDeployment at h
    cases hra : resolveAllContracts p.contracts p.aliases p.contracts with
    | error e => rw [hra] at h; cases h
    | ok resolved =>
      rw [hra] at h
      have hmem : s ∈ resolved := kahnStep_ok_subset _ _ _ _ h s hs
      obtain ⟨c, hc, hres⟩ := resolveAllContracts_ok_mem _ _ _ _ hra s hmem
      exact ⟨c, hc, resolveContractImports_preserves _ _ _ _ _ hres⟩
  · intro r codePath contracts aliases out r1 h
    exact resolveImportsLoop_state _ _ _ _ _ _ h

/-- Witness for C8 (amended): the deployment part at a two-module
working set whose resolution succeeds, instantiated at the resolved
dependent module; the ad-hoc part at a successful one-import rewrite. -/
theorem resolution_frame_amended_witness :
    (∃ c ∈ ({ aliases := [], contracts := [sampleA, sampleBdepA] } : Preprocessor).contracts,
      sampleBresolved.index = c.index ∧ sampleBresolved.name = c.name ∧
        sampleBresolved.source = c.source ∧ sampleBresolved.target = c.target ∧
        sampleBresolved.code = c.code ∧ sampleBresolved.program = c.program)
    ∧ (({ code := "import A from 0x000000000000000b\ncontract Q {}"
          program := [.stringLoc "q"] } : Resolver).code
        = "import A from 0x000000000000000b\ncontract Q {}"
      ∧ ({ code := "import A from 0x000000000000000b\ncontract Q {}"
           program := [.stringLoc "q"] } : Resolver).program
        = ({ code := "import A from \"0000000000000000\"\ncontract Q {}"
             program := [.stringLoc "q"] } : Resolver).program) := by
  constructor
  · exact resolution_frame_amended.1
      { aliases := [], contracts := [sampleA, sampleBdepA] }
      [sampleA, sampleBresolved]
      (by decide)
      sampleBresolved
      (by decide)
  · exact resolution_frame_amended.2
      { code := "import A from \"0000000000000000\"\ncontract Q {}"
        program := [.stringLoc "q"] }
      "/v/M.cdc"
      [{ name := "Z", source := "/v/0000000000000000", target := "000000000000000b" }] []
      "import A from 0x000000000000000b\ncontract Q {}"
      { code := "import A from 0x000000000000000b\ncontract Q {}"
        program := [.stringLoc "q"] }
      (by decide)

/-! ## Registration lemmas -/

/-- Writing a key absent from the map appends the new entry. -/
theorem insertContract_fresh :
    ∀ (cs : List Contract) (c : Contract),
      c.source ∉ cs.map (fun x => x.source) → insertContract cs c = cs ++ [c] := by
  intro cs c
  induction cs with
  | nil => intro _; rfl
  | cons c0 rest ih =>
    intro h
    simp only [List.map_cons, List.mem_cons, not_or] at h
    simp only [insertContract]
    rw [if_neg (fun he => h.1 he.symm)]
    rw [ih h.2]
    rfl

/-- The registration loop, started from a state whose ids are
`start, start+1, …`, assigns the next consecutive ids to fresh source
paths (each new id is the map size at the moment of the call) and
appends the new sources in call order. -/
theorem registerLoop_ok :
    ∀ (inputs : List SourceInput) (p : Preprocessor),
      inputs.Pairwise (fun a b => a.source ≠ b.source) →
      (∀ i ∈ inputs, i.source ∉ p.contracts.map (fun c => c.source)) →
      (∀ i ∈ inputs, ∃ cp, i.load = .ok cp) →
      ∃ pr, registerLoop p inputs = .ok pr
        ∧ pr.contracts.map (fun c => c.index)
            = p.contracts.map (fun c => c.index)
              ++ List.range' p.contracts.length inputs.length
        ∧ pr.contracts.map (fun c => c.source)
            = p.contracts.map (fun c => c.source) ++ inputs.map (fun i => i.source) := by
  intro inputs
  induction inputs with
  | nil =>
    intro p _ _ _
    exact ⟨p, rfl, by simp, by simp⟩
  | cons i is ih =>
    intro p hpw hdis hok
    obtain ⟨cp, hcp⟩ := hok i (List.mem_cons_self _ _)
    obtain ⟨code0, prog0⟩ := cp
    have hfresh : i.source ∉ p.contracts.map (fun c => c.source) :=
      hdis i (List.mem_cons_self _ _)
    have hinsert := insertContract_fresh p.contracts
      { index := p.contracts.length, name := i.name, source := i.source,
        target := i.target, code := code0, program := prog0,
        dependencies := [], aliases := [] } hfresh
    have hstep : p.AddContractSource i.name i.source i.target i.load
        = .ok { p with contracts := p.contracts
            ++ [{ index := p.contracts.length, name := i.name, source := i.source,
                  target := i.target, code := code0, program := prog0,
                  dependencies := [], aliases := [] }] } := by
      unfold Preprocessor.AddContractSource
      rw [hcp]
      exact congrArg (fun cs =>
        (Except.ok { aliases := p.aliases, contracts := cs } : Except String Preprocessor))
        hinsert
    have hpw1 := (List.pairwise_cons.mp hpw).2
    have hhead := (List.pairwise_cons.mp hpw).1
    have hdis1 : ∀ j ∈ is, j.source ∉
        (p.contracts
          ++ ([{ index := p.contracts.length, name := i.name, source := i.source,
                 target := i.target, code := code0, program := prog0,
                 dependencies := [], aliases := [] }] : List Contract)).map
          (fun c => c.source) := by
      intro j hj
      simp only [List.map_append, List.mem_append, List.map_cons, List.map_nil,
        List.mem_cons, List.not_mem_nil, or_false, not_or]
      exact ⟨fun hmem => hdis j (List.mem_cons_of_mem _ hj) hmem,
             fun heq => (hhead j hj) heq.symm⟩
    obtain ⟨pr, hpr, hidx, hsrc⟩ := ih
      { p with contracts := p.contracts
          ++ [{ index := p.contracts.length, name := i.name, source := i.source,
                target := i.target, code := code0, program := prog0,
                dependencies := [], aliases := [] }] }
      hpw1 hdis1 (fun j hj => hok j (List.mem_cons_of_mem _ hj))
    refine ⟨pr, ?_, ?_, ?_⟩
    · simp only [registerLoop]
      rw [hstep]
      exact hpr
    · rw [hidx]
      simp only [List.map_append, List.map_cons, List.map_nil, List.length_append,
        List.length_cons, List.length_nil, Nat.add_zero]
      rw [List.append_assoc]
      simp [List.range'_succ]
    · rw [hsrc]
      simp only [List.map_append, List.map_cons, List.map_nil]
      rw [List.append_assoc]
      rfl

/-- C10: successful registrations at pairwise-distinct source paths give
the working set pairwise-distinct contract ids — contract `k` receives
id `k`, the number of contracts registered before it (each id is
`len(p.contracts)` at call time, and inserting a fresh source path grows
the map by one) — so every contract is a distinct node key of the
dependency graph. -/
theorem addContractSource_distinct_ids :
    ∀ (aliases : List (String × String)) (inputs : List SourceInput),
      inputs.Pairwise (fun a b => a.source ≠ b.source) →
      (∀ i ∈ inputs, ∃ cp, i.load = .ok cp) →
      ∃ pr, registerAll aliases inputs = .ok pr
        ∧ pr.contracts.map (fun c => c.index) = List.range inputs.length
        ∧ (pr.contracts.map (fun c => c.index)).Nodup := by
  intro aliases inputs hpw hok
  obtain ⟨pr, hpr, hidx, _⟩ := registerLoop_ok inputs (NewPreprocessor aliases) hpw
    (by intro i _ h; cases h) hok
  refine ⟨pr, hpr, ?_, ?_⟩
  · rw [hidx]
    show List.range' 0 inputs.length = List.range inputs.length
    rw [List.range_eq_range']
  · rw [hidx]
    show (List.range' 0 inputs.length).Nodup
    rw [← List.range_eq_range']
    exact List.nodup_range _

/-- Witness for C10 at two concrete registrations. -/
theorem addContractSource_distinct_ids_witness :
    ∃ pr, registerAll []
        [{ name := "A", source := "/x/A.cdc", target := "0000000000000001"
           load := .ok ("contract A {}", []) },
         { name := "B", source := "/x/B.cdc", target := "0000000000000002"
           load := .ok ("import A from \"./A.cdc\"\ncontract B {}", [.stringLoc "./A.cdc"]) }]
      = .ok pr
      ∧ pr.contracts.map (fun c => c.index) = List.range 2
      ∧ (pr.contracts.map (fun c => c.index)).Nodup := by
  refine addContractSource_distinct_ids []
    [{ name := "A", source := "/x/A.cdc", target := "0000000000000001"
       load := .ok ("contract A {}", []) },
     { name := "B", source := "/x/B.cdc", target := "0000000000000002"
       load := .ok ("import A from \"./A.cdc\"\ncontract B {}", [.stringLoc "./A.cdc"]) }]
    (by simp) ?_
  intro i hi
  rcases List.mem_cons.mp hi with h | h
  · exact ⟨_, by rw [h]⟩
  · rcases List.mem_cons.mp h with h1 | h1
    · exact ⟨_, by rw [h1]⟩
    · cases h1

/-! ## Graph lemmas -/

/-- The freshly written pair is in the map. -/
theorem mapInsert_mem_self {α : Type} :
    ∀ (m : List (String × α)) (k : String) (v : α), (k, v) ∈ mapInsert m k v := by
  intro m k v
  induction m with
  | nil => exact List.mem_cons_self _ _
  | cons p rest ih =>
    simp only [mapInsert]
    by_cases hk : p.1 = k
    · rw [if_pos hk]; exact List.mem_cons_self _ _
    · rw [if_neg hk]; exact List.mem_cons_of_mem _ ih

/-- Pairs under other keys survive a map write. -/
theorem mapInsert_mem_of_ne {α : Type} :
    ∀ (m : List (String × α)) (k : String) (v : α) (k1 : String) (v1 : α),
      (k, v) ∈ m → k ≠ k1 → (k, v) ∈ mapInsert m k1 v1 := by
  intro m k v k1 v1
  induction m with
  | nil => intro h; cases h
  | cons p rest ih =>
    intro h hne
    simp only [mapInsert]
    by_cases hk : p.1 = k1
    · rw [if_pos hk]
      rcases List.mem_cons.mp h with h1 | h1
      · exact absurd ((congrArg Prod.fst h1).trans hk) hne
      · exact List.mem_cons_of_mem _ h1
    · rw [if_neg hk]
      rcases List.mem_cons.mp h with h1 | h1
      · exact h1 ▸ List.mem_cons_self _ _
      · exact List.mem_cons_of_mem _ (ih h1 hne)

/-- A pair of the written map is the written pair or an old pair. -/
theorem mapInsert_mem_elim {α : Type} :
    ∀ (m : List (String × α)) (k1 : String) (v1 : α) (k : String) (v : α),
      (k, v) ∈ mapInsert m k1 v1 → (k = k1 ∧ v = v1) ∨ (k, v) ∈ m := by
  intro m k1 v1 k v
  induction m with
  | nil =>
    intro h
    rcases List.mem_cons.mp h with h1 | h1
    · exact Or.inl ⟨congrArg Prod.fst h1, congrArg Prod.snd h1⟩
    · cases h1
  | cons p rest ih =>
    intro h
    simp only [mapInsert] at h
    by_cases hk : p.1 = k1
    · rw [if_pos hk] at h
      rcases List.mem_cons.mp h with h1 | h1
      · exact Or.inl ⟨congrArg Prod.fst h1, congrArg Prod.snd h1⟩
      · exact Or.inr (List.mem_cons_of_mem _ h1)
    · rw [if_neg hk] at h
      rcases List.mem_cons.mp h with h1 | h1
      · exact Or.inr (h1 ▸ List.mem_cons_self _ _)
      · rcases ih h1 with h2 | h2
        · exact Or.inl h2
        · exact Or.inr (List.mem_cons_of_mem _ h2)

/-- A successful working-set lookup returns a member of the set. -/
theorem lookupContract_mem {cs : List Contract} {path : String} {c : Contract}
    (h : lookupContract cs path = some c) : c ∈ cs :=
  List.mem_of_find?_eq_some h

/-- A module registered as somebody's dependency is in the working
set. -/
theorem dependsOn_mem_left {p : Preprocessor} {d m : Contract}
    (h : dependsOn p d m) : d ∈ p.contracts := by
  obtain ⟨_, loc, _, hlk⟩ := h
  exact lookupContract_mem hlk

/-- Every dependency entry of a listed contract contributes its edge. -/
theorem depEdges_mem :
    ∀ (cs : List Contract) (c : Contract) (pr : String × DepRef),
      c ∈ cs → pr ∈ c.dependencies → (pr.2.index, c.index) ∈ depEdges cs := by
  intro cs c pr hc hpr
  unfold depEdges
  rw [List.mem_flatten]
  exact ⟨c.dependencies.map (fun p => (p.2.index, c.index)),
    List.mem_map_of_mem _ hc, List.mem_map_of_mem _ hpr⟩

/-- Every edge of the graph comes from a dependency entry of a listed
contract. -/
theorem depEdges_elim :
    ∀ (cs : List Contract) (i j : Nat), (i, j) ∈ depEdges cs →
      ∃ c ∈ cs, c.index = j ∧ ∃ pr ∈ c.dependencies, pr.2.index = i := by
  intro cs i j h
  unfold depEdges at h
  rw [List.mem_flatten] at h
  obtain ⟨l, hl, hel⟩ := h
  rw [List.mem_map] at hl
  obtain ⟨c, hc, rfl⟩ := hl
  rw [List.mem_map] at hel
  obtain ⟨pr, hpr, hpr2⟩ := hel
  exact ⟨c, hc, (congrArg Prod.snd hpr2 : _ = j), pr, hpr,
    (congrArg Prod.fst hpr2 : _ = i)⟩

/-- A recorded dependency entry whose reference matches the working-set
lookup survives the rest of the per-contract resolution loop. -/
theorem resolveContractImports_keeps (all : List Contract) (al : List (String × String)) :
    ∀ (imps : List String) (c c1 : Contract),
      resolveContractImports all al c imps = .ok c1 →
      ∀ (loc : String) (d : Contract),
        lookupContract all (absolutePath c.source loc) = some d →
        (loc, { index := d.index, target := d.target }) ∈ c.dependencies →
        (loc, { index := d.index, target := d.target }) ∈ c1.dependencies := by
  intro imps
  induction imps with
  | nil =>
    intro c c1 h loc d _ hmem
    cases h
    exact hmem
  | cons l0 rest ih =>
    intro c c1 h loc d hlk hmem
    simp only [resolveContractImports] at h
    cases hl0 : lookupContract all (absolutePath c.source l0) with
    | some d0 =>
      rw [hl0] at h
      by_cases hloc : loc = l0
      · subst hloc
        rw [hlk] at hl0
        cases hl0
        exact ih _ _ h loc d hlk (mapInsert_mem_self _ _ _)
      · exact ih _ _ h loc d hlk (mapInsert_mem_of_ne _ _ _ _ _ hmem hloc)
    | none =>
      rw [hl0] at h
      cases ha0 : mapLookup al (getAliasForImport l0) with
      | some a =>
        rw [ha0] at h
        exact ih _ _ h loc d hlk hmem
      | none => rw [ha0] at h; cases h

/-- Every import location that resolves to a working-set module has its
dependency entry recorded by a successful per-contract resolution. -/
theorem resolveContractImports_records (all : List Contract) (al : List (String × String)) :
    ∀ (imps : List String) (c c1 : Contract),
      resolveContractImports all al c imps = .ok c1 →
      ∀ (loc : String) (d : Contract), loc ∈ imps →
        lookupContract all (absolutePath c.source loc) = some d →
        (loc, { index := d.index, target := d.target }) ∈ c1.dependencies := by
  intro imps
  induction imps with
  | nil =>
    intro c c1 h loc d hmem
    cases hmem
  | cons l0 rest ih =>
    intro c c1 h loc d hmem hlk
    simp only [resolveContractImports] at h
    cases hl0 : lookupContract all (absolutePath c.source l0) with
    | some d0 =>
      rw [hl0] at h
      rcases List.mem_cons.mp hmem with h1 | h1
      · subst h1
        rw [hlk] at hl0
        cases hl0
        exact resolveContractImports_keeps all al rest _ _ h loc d hlk
          (mapInsert_mem_self _ _ _)
      · exact ih _ _ h loc d h1 hlk
    | none =>
      rw [hl0] at h
      cases ha0 : mapLookup al (getAliasForImport l0) with
      | some a =>
        rw [ha0] at h
        rcases List.mem_cons.mp hmem with h1 | h1
        · subst h1
          rw [hlk] at hl0
          cases hl0
        · exact ih _ _ h loc d h1 hlk
      | none => rw [ha0] at h; cases h

/-- Every dependency entry of a resolved contract is an original entry
or was created from an import location resolving in the working set. -/
theorem resolveContractImports_entries (all : List Contract) (al : List (String × String)) :
    ∀ (imps : List String) (c c1 : Contract),
      resolveContractImports all al c imps = .ok c1 →
      ∀ (loc : String) (ref : DepRef), (loc, ref) ∈ c1.dependencies →
        (loc, ref) ∈ c.dependencies ∨
          (loc ∈ imps ∧ ∃ d, lookupContract all (absolutePath c.source loc) = some d ∧
            ref = { index := d.index, target := d.target }) := by
  intro imps
  induction imps with
  | nil =>
    intro c c1 h loc ref hmem
    cases h
    exact Or.inl hmem
  | cons l0 rest ih =>
    intro c c1 h loc ref hmem
    simp only [resolveContractImports] at h
    cases hl0 : lookupContract all (absolutePath c.source l0) with
    | some d0 =>
      rw [hl0] at h
      rcases ih _ _ h loc ref hmem with h1 | h1
      · rcases mapInsert_mem_elim _ _ _ _ _ h1 with ⟨hk, hv⟩ | h2
        · subst hk
          exact Or.inr ⟨List.mem_cons_self _ _, d0, hl0, hv⟩
        · exact Or.inl h2
      · exact Or.inr ⟨List.mem_cons_of_mem _ h1.1, h1.2⟩
    | none =>
      rw [hl0] at h
      cases ha0 : mapLookup al (getAliasForImport l0) with
      | some a =>
        rw [ha0] at h
        rcases ih _ _ h loc ref hmem with h1 | h1
        · exact Or.inl h1
        · exact Or.inr ⟨List.mem_cons_of_mem _ h1.1, h1.2⟩
      | none => rw [ha0] at h; cases h

/-- A contract whose every import matches a table resolves
successfully. -/
theorem resolveContractImports_total (all : List Contract) (al : List (String × String)) :
    ∀ (imps : List String) (c : Contract),
      (∀ loc ∈ imps, (lookupContract all (absolutePath c.source loc)).isSome = true
        ∨ (mapLookup al (getAliasForImport loc)).isSome = true) →
      ∃ c1, resolveContractImports all al c imps = .ok c1 := by
  intro imps
  induction imps with
  | nil => intro c _; exact ⟨c, rfl⟩
  | cons l0 rest ih =>
    intro c hres
    simp only [resolveContractImports]
    cases hl0 : lookupContract all (absolutePath c.source l0) with
    | some d0 =>
      exact ih (c.addDependency l0 { index := d0.index, target := d0.target })
        (fun loc hloc => hres loc (List.mem_cons_of_mem _ hloc))
    | none =>
      cases ha0 : mapLookup al (getAliasForImport l0) with
      | some a =>
        exact ih (c.addAlias l0 (flowHexToAddress a))
          (fun loc hloc => hres loc (List.mem_cons_of_mem _ hloc))
      | none =>
        rcases hres l0 (List.mem_cons_self _ _) with h1 | h1
        · rw [hl0] at h1; cases h1
        · rw [ha0] at h1; cases h1

/-- A working set whose every import matches a table passes the whole
resolution phase. -/
theorem resolveAllContracts_total (all : List Contract) (al : List (String × String)) :
    ∀ (cs : List Contract),
      (∀ c ∈ cs, ∀ loc ∈ c.imports,
        (lookupContract all (absolutePath c.source loc)).isSome = true
          ∨ (mapLookup al (getAliasForImport loc)).isSome = true) →
      ∃ rs, resolveAllContracts all al cs = .ok rs := by
  intro cs
  induction cs with
  | nil => intro _; exact ⟨[], rfl⟩
  | cons c0 rest ih =>
    intro hres
    obtain ⟨c1, hc1⟩ := resolveContractImports_total all al c0.imports c0
      (hres c0 (List.mem_cons_self _ _))
    obtain ⟨rs, hrs⟩ := ih (fun c hc => hres c (List.mem_cons_of_mem _ hc))
    exact ⟨c1 :: rs, by simp only [resolveAllContracts, hc1, hrs]⟩

/-- The sort only ever fails with the import-cycle error. -/
theorem kahnStep_error_shape (edges : List (Nat × Nat)) :
    ∀ (fuel : Nat) (remaining : List Contract) (e : PrepError),
      kahnStep edges fuel remaining = .error e → ∃ stuck, e = .importCycle stuck := by
  intro fuel
  induction fuel with
  | zero =>
    intro remaining e h
    simp only [kahnStep] at h
    by_cases hre : remaining.isEmpty = true
    · rw [if_pos hre] at h; cases h
    · rw [if_neg hre] at h; cases h; exact ⟨remaining, rfl⟩
  | succ n ih =>
    intro remaining e h
    simp only [kahnStep] at h
    cases hf : remaining.find? (fun c => noIncoming edges remaining c) with
    | some c =>
      rw [hf] at h
      have h2 : (match kahnStep edges n (eraseFirst remaining c) with
        | .ok rest => (.ok (c :: rest) : Except PrepError (List Contract))
        | .error e => .error e) = .error e := h
      cases hk : kahnStep edges n (eraseFirst remaining c) with
      | ok rest => rw [hk] at h2; cases h2
      | error e1 =>
        rw [hk] at h2
        cases h2
        exact ih _ _ hk
    | none =>
      rw [hf] at h
      by_cases hre : remaining.isEmpty = true
      · rw [if_pos hre] at h; cases h
      · rw [if_neg hre] at h; cases h; exact ⟨remaining, rfl⟩

/-- The sort's output is a permutation of its nodes. -/
theorem kahnStep_ok_perm (edges : List (Nat × Nat)) :
    ∀ (fuel : Nat) (remaining out : List Contract),
      kahnStep edges fuel remaining = .ok out → out.Perm remaining := by
  intro fuel
  induction fuel with
  | zero =>
    intro remaining out h
    simp only [kahnStep] at h
    by_cases hre : remaining.isEmpty = true
    · rw [if_pos hre] at h
      cases h
      rw [List.isEmpty_iff] at hre
      rw [hre]
    · rw [if_neg hre] at h; cases h
  | succ n ih =>
    intro remaining out h
    simp only [kahnStep] at h
    cases hf : remaining.find? (fun c => noIncoming edges remaining c) with
    | some c =>
      rw [hf] at h
      have h2 : (match kahnStep edges n (eraseFirst remaining c) with
        | .ok rest => (.ok (c :: rest) : Except PrepError (List Contract))
        | .error e => .error e) = .ok out := h
      cases hk : kahnStep edges n (eraseFirst remaining c) with
      | ok rest =>
        rw [hk] at h2
        cases h2
        exact ((ih _ _ hk).cons c).trans
          (perm_cons_eraseFirst remaining c (List.mem_of_find?_eq_some hf)).symm
      | error e1 => rw [hk] at h2; cases h2
    | none =>
      rw [hf] at h
      by_cases hre : remaining.isEmpty = true
      · rw [if_pos hre] at h
        cases h
        rw [List.isEmpty_iff] at hre
        rw [hre]
      · rw [if_neg hre] at h; cases h

/-- Unfolding of the position function over a cons cell. -/
theorem posByIdx_cons (c : Contract) (l : List Contract) (i : Nat) :
    posByIdx (c :: l) i = if c.index = i then 0 else posByIdx l i + 1 := by
  unfold posByIdx
  rw [List.findIdx_cons]
  by_cases h : c.index = i
  · simp [h]
  · have hb : (c.index == i) = false := beq_eq_false_iff_ne.mpr h
    rw [if_neg h, hb]
    rfl

/-- A member's id occurs at a position inside the list. -/
theorem posByIdx_lt_length :
    ∀ (l : List Contract) (x : Contract), x ∈ l → posByIdx l x.index < l.length := by
  intro l
  induction l with
  | nil => intro x h; cases h
  | cons c rest ih =>
    intro x h
    rw [posByIdx_cons]
    by_cases hc : c.index = x.index
    · rw [if_pos hc]; exact Nat.succ_pos _
    · rw [if_neg hc]
      have hx : x ∈ rest := by
        rcases List.mem_cons.mp h with h1 | h1
        · exact absurd (congrArg Contract.index h1.symm) hc
        · exact h1
      exact Nat.succ_lt_succ (ih x hx)

/-- For every edge of the graph between two sorted nodes, the sort puts
the source of the edge strictly before its destination. -/
theorem kahnStep_ok_sorted (edges : List (Nat × Nat)) :
    ∀ (fuel : Nat) (remaining out : List Contract),
      kahnStep edges fuel remaining = .ok out →
      ∀ a b, a ∈ remaining → b ∈ remaining → (a.index, b.index) ∈ edges →
        posByIdx out a.index < posByIdx out b.index := by
  intro fuel
  induction fuel with
  | zero =>
    intro remaining out h a b ha
    simp only [kahnStep] at h
    by_cases hre : remaining.isEmpty = true
    · rw [List.isEmpty_iff] at hre
      rw [hre] at ha
      cases ha
    · rw [if_neg hre] at h; cases h
  | succ n ih =>
    intro remaining out h a b ha hb hedge
    simp only [kahnStep] at h
    cases hf : remaining.find? (fun c => noIncoming edges remaining c) with
    | some c =>
      rw [hf] at h
      have h2 : (match kahnStep edges n (eraseFirst remaining c) with
        | .ok rest => (.ok (c :: rest) : Except PrepError (List Contract))
        | .error e => .error e) = .ok out := h
      cases hk : kahnStep edges n (eraseFirst remaining c) with
      | error e1 => rw [hk] at h2; cases h2
      | ok rest =>
        rw [hk] at h2
        cases h2
        have hnoin : noIncoming edges remaining c = true := List.find?_some hf
        have hnoin2 : ∀ d ∈ remaining, (d.index, c.index) ∉ edges := by
          intro d hd
          have := (List.all_eq_true.mp hnoin) d hd
          exact of_decide_eq_true this
        by_cases hbc : b.index = c.index
        · exact absurd (hbc ▸ hedge) (hnoin2 a ha)
        · have hbmem : b ∈ eraseFirst remaining c :=
            mem_eraseFirst_of_ne _ _ _ hb (fun he => hbc (congrArg Contract.index he))
          have hbneg : ¬ (c.index = b.index) := fun he => hbc he.symm
          by_cases hac : a.index = c.index
          · rw [posByIdx_cons, posByIdx_cons, if_pos hac.symm, if_neg hbneg]
            exact Nat.succ_pos _
          · have haneg : ¬ (c.index = a.index) := fun he => hac he.symm
            have hamem : a ∈ eraseFirst remaining c :=
              mem_eraseFirst_of_ne _ _ _ ha (fun he => hac (congrArg Contract.index he))
            rw [posByIdx_cons, posByIdx_cons, if_neg haneg, if_neg hbneg]
            exact Nat.succ_lt_succ (ih _ _ hk a b hamem hbmem hedge)
    | none =>
      rw [hf] at h
      by_cases hre : remaining.isEmpty = true
      · rw [List.isEmpty_iff] at hre
        rw [hre] at ha
        cases ha
      · rw [if_neg hre] at h; cases h

/-- When every nonempty subset of the nodes has a source (a node with no
incoming edge from the subset), the sort succeeds. -/
theorem kahnStep_ok_of_sources (edges : List (Nat × Nat)) :
    ∀ (fuel : Nat) (remaining : List Contract), remaining.length ≤ fuel →
      (∀ S : List Contract, S ≠ [] → (∀ x ∈ S, x ∈ remaining) →
        ∃ c ∈ S, ∀ d ∈ S, (d.index, c.index) ∉ edges) →
      ∃ out, kahnStep edges fuel remaining = .ok out := by
  intro fuel
  induction fuel with
  | zero =>
    intro remaining hlen _
    have : remaining = [] := List.eq_nil_of_length_eq_zero (Nat.le_zero.mp hlen)
    subst this
    exact ⟨[], rfl⟩
  | succ n ih =>
    intro remaining hlen hsrc
    by_cases hre : remaining = []
    · subst hre
      exact ⟨[], rfl⟩
    · obtain ⟨c0, hc0, hc0no⟩ := hsrc remaining hre (fun x hx => hx)
      have hpred : noIncoming edges remaining c0 = true := by
        rw [noIncoming, List.all_eq_true]
        intro d hd
        exact decide_eq_true (hc0no d hd)
      have hfind : (remaining.find? (fun c => noIncoming edges remaining c)).isSome := by
        rw [List.find?_isSome]
        exact ⟨c0, hc0, hpred⟩
      obtain ⟨c, hc⟩ := Option.isSome_iff_exists.mp hfind
      have hcmem : c ∈ remaining := List.mem_of_find?_eq_some hc
      have hlen1 : (eraseFirst remaining c).length ≤ n := by
        have := eraseFirst_length remaining c hcmem
        omega
      obtain ⟨out, hout⟩ := ih (eraseFirst remaining c) hlen1
        (fun S hS hsub => hsrc S hS (fun x hx => eraseFirst_subset _ _ _ (hsub x hx)))
      refine ⟨c :: out, ?_⟩
      simp only [kahnStep]
      rw [hc]
      have h2 : (match kahnStep edges n (eraseFirst remaining c) with
        | .ok rest => (.ok (c :: rest) : Except PrepError (List Contract))
        | .error e => .error e) = .ok (c :: out) := by rw [hout]
      exact h2

/-- In a finite graph with no directed cycle, every nonempty subset of
the nodes has a source. -/
theorem exists_source_of_acyclic (edges : List (Nat × Nat)) (L : List Contract)
    (hirr : ∀ v : {x // x ∈ L},
      ¬ Relation.TransGen (fun a b : {x // x ∈ L} => (a.1.index, b.1.index) ∈ edges) v v) :
    ∀ S : List Contract, S ≠ [] → (∀ x ∈ S, x ∈ L) →
      ∃ c ∈ S, ∀ d ∈ S, (d.index, c.index) ∉ edges := by
  intro S hS hsub
  have hfin : Fintype {x // x ∈ L} := List.Subtype.fintype L
  have htrans : IsTrans {x // x ∈ L}
      (Relation.TransGen (fun a b : {x // x ∈ L} => (a.1.index, b.1.index) ∈ edges)) :=
    inferInstance
  have hirrefl : IsIrrefl {x // x ∈ L}
      (Relation.TransGen (fun a b : {x // x ∈ L} => (a.1.index, b.1.index) ∈ edges)) := ⟨hirr⟩
  have hwf : WellFounded
      (Relation.TransGen (fun a b : {x // x ∈ L} => (a.1.index, b.1.index) ∈ edges)) :=
    Finite.wellFounded_of_trans_of_irrefl _
  have hwfr : WellFounded (fun a b : {x // x ∈ L} => (a.1.index, b.1.index) ∈ edges) :=
    Subrelation.wf (fun h => Relation.TransGen.single h) hwf
  obtain ⟨x0, hx0⟩ := List.exists_mem_of_ne_nil S hS
  obtain ⟨m, hmS, hmin⟩ := hwfr.has_min {v : {x // x ∈ L} | v.1 ∈ S}
    ⟨⟨x0, hsub x0 hx0⟩, hx0⟩
  exact ⟨m.1, hmS, fun d hd hedge => hmin ⟨d, hsub d hd⟩ hd hedge⟩

/-- With pairwise-distinct ids, looking a member's id up finds exactly
that member. -/
theorem findByIdx_eq :
    ∀ (cs : List Contract), cs.Pairwise (fun a b => a.index ≠ b.index) →
      ∀ c ∈ cs, findByIdx cs c.index = some c := by
  intro cs
  induction cs with
  | nil => intro _ c h; cases h
  | cons c0 rest ih =>
    intro hpw c hc
    rcases List.mem_cons.mp hc with h1 | h1
    · subst h1
      unfold findByIdx
      simp [List.find?_cons]
    · have hne : c0.index ≠ c.index := (List.pairwise_cons.mp hpw).1 c h1
      unfold findByIdx
      rw [List.find?_cons]
      have : (c0.index == c.index) = false := by
        simp only [beq_eq_false_iff_ne, ne_eq]
        exact hne
      rw [this]
      exact ih (List.pairwise_cons.mp hpw).2 c h1

/-- A successful resolution pass returns one contract per input. -/
theorem resolveAllContracts_ok_length (all : List Contract) (al : List (String × String)) :
    ∀ (cs rs : List Contract), resolveAllContracts all al cs = .ok rs →
      rs.length = cs.length := by
  intro cs
  induction cs with
  | nil =>
    intro rs h
    cases h
    rfl
  | cons c0 rest ih =>
    intro rs h
    simp only [resolveAllContracts] at h
    cases h0 : resolveContractImports all al c0 c0.imports with
    | error e => rw [h0] at h; cases h
    | ok c1 =>
      rw [h0] at h
      cases h1 : resolveAllContracts all al rest with
      | error e => rw [h1] at h; cases h
      | ok rs1 =>
        rw [h1] at h
        cases h
        simp only [List.length_cons, ih _ h1]

/-- Every edge of the resolved dependency graph reflects a `dependsOn`
pair of the original working set (for a fresh working set, whose
dependency maps start empty). -/
theorem edge_to_dependsOn (p : Preprocessor) (resolved : List Contract)
    (hfresh : ∀ c ∈ p.contracts, c.dependencies = [])
    (hra : resolveAllContracts p.contracts p.aliases p.contracts = .ok resolved) :
    ∀ i j, (i, j) ∈ depEdges resolved →
      ∃ d m, dependsOn p d m ∧ d.index = i ∧ m.index = j := by
  intro i j he
  obtain ⟨c1, hc1, hcj, pr, hpr, hpri⟩ := depEdges_elim resolved i j he
  obtain ⟨loc, ref⟩ := pr
  obtain ⟨m, hm, hresm⟩ := resolveAllContracts_ok_mem _ _ _ _ hra c1 hc1
  rcases resolveContractImports_entries _ _ _ _ _ hresm loc ref hpr with h1 | h1
  · rw [hfresh m hm] at h1
    cases h1
  · obtain ⟨hloc, d, hlk, href⟩ := h1
    have hpres := resolveContractImports_preserves _ _ _ _ _ hresm
    refine ⟨d, m, ⟨hm, loc, hloc, hlk⟩, ?_, hpres.1.symm.trans hcj⟩
    have : ref.index = d.index := by rw [href]
    exact this ▸ hpri

/-- C1: for a fresh working set with pairwise-distinct ids whose every import
resolves and whose dependency relation is acyclic,
`PrepareForDeployment` succeeds and returns all modules in an order
placing every module strictly after each of its direct and transitive
dependencies (`index(d) < index(m)` in the returned list, positions
being genuine list positions). -/
theorem prepareForDeployment_acyclic_topological :
    ∀ (p : Preprocessor),
      (∀ c ∈ p.contracts, c.dependencies = []) →
      p.contracts.Pairwise (fun a b => a.index ≠ b.index) →
      (∀ c ∈ p.contracts, ∀ loc ∈ c.imports,
        (lookupContract p.contracts (absolutePath c.source loc)).isSome = true
          ∨ (mapLookup p.aliases (getAliasForImport loc)).isSome = true) →
      (∀ c, ¬ Relation.TransGen (dependsOn p) c c) →
      ∃ sorted, p.PrepareForDeployment = .ok sorted
        ∧ sorted.length = p.contracts.length
        ∧ ∀ d m, Relation.TransGen (dependsOn p) d m →
            posByIdx sorted d.index < posByIdx sorted m.index
              ∧ posByIdx sorted m.index < sorted.length := by
  intro p hfresh hdist hres hacyc
  obtain ⟨resolved, hra⟩ := resolveAllContracts_total p.contracts p.aliases p.contracts hres
  have hlift : ∀ a b : {x // x ∈ resolved}, (a.1.index, b.1.index) ∈ depEdges resolved →
      dependsOn p ((findByIdx p.contracts a.1.index).getD default)
        ((findByIdx p.contracts b.1.index).getD default) := by
    intro a b he
    obtain ⟨d, m, hdm, hdi, hmj⟩ := edge_to_dependsOn p resolved hfresh hra _ _ he
    have hd : findByIdx p.contracts a.1.index = some d := by
      rw [← hdi]
      exact findByIdx_eq p.contracts hdist d (dependsOn_mem_left hdm)
    have hm2 : findByIdx p.contracts b.1.index = some m := by
      rw [← hmj]
      exact findByIdx_eq p.contracts hdist m hdm.1
    rw [hd, hm2]
    exact hdm
  have hirr : ∀ v : {x // x ∈ resolved},
      ¬ Relation.TransGen (fun a b : {x // x ∈ resolved} =>
        (a.1.index, b.1.index) ∈ depEdges resolved) v v := by
    intro v hv
    exact hacyc _ (Relation.TransGen.lift _ hlift hv)
  obtain ⟨sorted, hsorted⟩ := kahnStep_ok_of_sources (depEdges resolved) resolved.length
    resolved (Nat.le_refl _) (exists_source_of_acyclic _ _ hirr)
  have hprep : p.PrepareForDeployment = .ok sorted := by
    unfold Preprocessor.PrepareForDeployment
    rw [hra]
    exact hsorted
  have hperm := kahnStep_ok_perm _ _ _ _ hsorted
  have hcounter : ∀ x ∈ p.contracts, ∃ x1 ∈ resolved,
      resolveContractImports p.contracts p.aliases x x.imports = .ok x1 :=
    fun x hx => resolveAllContracts_ok_mem_rev _ _ _ _ hra x hx
  have hone : ∀ d m, dependsOn p d m →
      posByIdx sorted d.index < posByIdx sorted m.index := by
    rintro d m ⟨hm, loc, hloc, hlk⟩
    obtain ⟨m1, hm1, hresm⟩ := hcounter m hm
    obtain ⟨d1, hd1, hresd⟩ := hcounter d (lookupContract_mem hlk)
    have hrec := resolveContractImports_records _ _ _ _ _ hresm loc d hloc hlk
    have hedge : (d.index, m1.index) ∈ depEdges resolved :=
      depEdges_mem resolved m1 (loc, { index := d.index, target := d.target }) hm1 hrec
    have hpm := resolveContractImports_preserves _ _ _ _ _ hresm
    have hpd := resolveContractImports_preserves _ _ _ _ _ hresd
    have hedge1 : (d1.index, m1.index) ∈ depEdges resolved := by
      rw [hpd.1]
      exact hedge
    have hlt := kahnStep_ok_sorted _ _ _ _ hsorted d1 m1 hd1 hm1 hedge1
    rw [hpd.1, hpm.1] at hlt
    exact hlt
  have hbound : ∀ m ∈ p.contracts, posByIdx sorted m.index < sorted.length := by
    intro m hm
    obtain ⟨m1, hm1, hresm⟩ := hcounter m hm
    have hpm := resolveContractImports_preserves _ _ _ _ _ hresm
    have hmem : m1 ∈ sorted := hperm.mem_iff.mpr hm1
    have hl := posByIdx_lt_length sorted m1 hmem
    rw [hpm.1] at hl
    exact hl
  refine ⟨sorted, hprep,
    hperm.length_eq.trans (resolveAllContracts_ok_length _ _ _ _ hra), ?_⟩
  intro d m htg
  induction htg with
  | single h => exact ⟨hone _ _ h, hbound _ h.1⟩
  | tail hab hbc ih => exact ⟨ih.1.trans (hone _ _ hbc), hbound _ hbc.1⟩

/-- C2: a fresh working set whose every import resolves and whose
dependency relation has a cycle through at least two distinct modules
makes `PrepareForDeployment` fail with the import-cycle error — no
ordering is returned. -/
theorem prepareForDeployment_cycle_error :
    ∀ (p : Preprocessor),
      (∀ c ∈ p.contracts, ∀ loc ∈ c.imports,
        (lookupContract p.contracts (absolutePath c.source loc)).isSome = true
          ∨ (mapLookup p.aliases (getAliasForImport loc)).isSome = true) →
      (∃ x y, x.index ≠ y.index ∧ Relation.TransGen (dependsOn p) x y ∧
        Relation.TransGen (dependsOn p) y x) →
      ∃ stuck, p.PrepareForDeployment = .error (.importCycle stuck) := by
  intro p hres hcyc
  obtain ⟨resolved, hra⟩ := resolveAllContracts_total p.contracts p.aliases p.contracts hres
  cases hsort : kahnStep (depEdges resolved) resolved.length resolved with
  | error e =>
    obtain ⟨stuck, hst⟩ := kahnStep_error_shape _ _ _ _ hsort
    refine ⟨stuck, ?_⟩
    unfold Preprocessor.PrepareForDeployment
    rw [hra]
    show kahnStep (depEdges resolved) resolved.length resolved = _
    rw [hsort, hst]
  | ok sorted =>
    exfalso
    have hcounter : ∀ x ∈ p.contracts, ∃ x1 ∈ resolved,
        resolveContractImports p.contracts p.aliases x x.imports = .ok x1 :=
      fun x hx => resolveAllContracts_ok_mem_rev _ _ _ _ hra x hx
    have hone : ∀ d m, dependsOn p d m →
        posByIdx sorted d.index < posByIdx sorted m.index := by
      rintro d m ⟨hm, loc, hloc, hlk⟩
      obtain ⟨m1, hm1, hresm⟩ := hcounter m hm
      obtain ⟨d1, hd1, hresd⟩ := hcounter d (lookupContract_mem hlk)
      have hrec := resolveContractImports_records _ _ _ _ _ hresm loc d hloc hlk
      have hedge : (d.index, m1.index) ∈ depEdges resolved :=
        depEdges_mem resolved m1 (loc, { index := d.index, target := d.target }) hm1 hrec
      have hpm := resolveContractImports_preserves _ _ _ _ _ hresm
      have hpd := resolveContractImports_preserves _ _ _ _ _ hresd
      have hedge1 : (d1.index, m1.index) ∈ depEdges resolved := by
        rw [hpd.1]
        exact hedge
      have hlt := kahnStep_ok_sorted _ _ _ _ hsort d1 m1 hd1 hm1 hedge1
      rw [hpd.1, hpm.1] at hlt
      exact hlt
    have hinc : ∀ a b, Relation.TransGen (dependsOn p) a b →
        posByIdx sorted a.index < posByIdx sorted b.index := by
      intro a b htg
      induction htg with
      | single h => exact hone _ _ h
      | tail hab hbc ih => exact ih.trans (hone _ _ hbc)
    obtain ⟨x, y, hxy, h1, h2⟩ := hcyc
    exact absurd (hinc x x (h1.trans h2)) (lt_irrefl _)

/-- Witness for C1 at the concrete acyclic working set `{A, B}` where
`B` imports `"./A.cdc"`. -/
theorem prepareForDeployment_acyclic_topological_witness :
    ∃ sorted, Preprocessor.PrepareForDeployment
        { aliases := [], contracts := [sampleA, sampleBdepA] } = .ok sorted
      ∧ sorted.length = ({ aliases := [], contracts := [sampleA, sampleBdepA] } :
          Preprocessor).contracts.length
      ∧ ∀ d m, Relation.TransGen
            (dependsOn { aliases := [], contracts := [sampleA, sampleBdepA] }) d m →
          posByIdx sorted d.index < posByIdx sorted m.index
            ∧ posByIdx sorted m.index < sorted.length := by
  refine prepareForDeployment_acyclic_topological
    { aliases := [], contracts := [sampleA, sampleBdepA] }
    (by decide) (by decide) (by decide) ?_
  have hrel : ∀ d m, dependsOn { aliases := [], contracts := [sampleA, sampleBdepA] } d m →
      d = sampleA ∧ m = sampleBdepA := by
    rintro d m ⟨hm, loc, hloc, hlk⟩
    rcases List.mem_cons.mp hm with h1 | h1
    · subst h1
      have hemp : Contract.imports sampleA = [] := rfl
      rw [hemp] at hloc
      cases hloc
    · rcases List.mem_cons.mp h1 with h2 | h2
      · subst h2
        have himps : Contract.imports sampleBdepA = ["./A.cdc"] := rfl
        rw [himps] at hloc
        rcases List.mem_cons.mp hloc with h3 | h3
        · subst h3
          have hcomp : lookupContract [sampleA, sampleBdepA]
              (absolutePath sampleBdepA.source "./A.cdc") = some sampleA := by decide
          rw [hcomp] at hlk
          injection hlk with h4
          exact ⟨h4.symm, rfl⟩
        · cases h3
      · cases h2
  intro c htg
  have hclosed : ∀ a b,
      Relation.TransGen (dependsOn { aliases := [], contracts := [sampleA, sampleBdepA] }) a b →
      a = sampleA ∧ b = sampleBdepA := by
    intro a b htg2
    induction htg2 with
    | single h => exact hrel _ _ h
    | tail hab hbc ih =>
      have h2 := hrel _ _ hbc
      exact absurd (ih.2.symm.trans h2.1) (by decide)
  have h3 := hclosed c c htg
  exact absurd (h3.1.symm.trans h3.2) (by decide)

/-- Witness for C2 at the concrete two-module cycle `A ↔ B`. -/
theorem prepareForDeployment_cycle_error_witness :
    ∃ stuck, Preprocessor.PrepareForDeployment
        { aliases := [], contracts := [cycA, cycB] } =
      .error (.importCycle stuck) := by
  refine prepareForDeployment_cycle_error
    { aliases := [], contracts := [cycA, cycB] }
    (by decide) ?_
  refine ⟨cycA, cycB, by decide, ?_, ?_⟩
  · exact Relation.TransGen.single ⟨by decide, "./A.cdc", by decide, by decide⟩
  · exact Relation.TransGen.single ⟨by decide, "./B.cdc", by decide, by decide⟩
